import Mathlib

/-!
Verification of the sandboxed expression engine in `databooks/affirm.py`
(class `DatabooksParser` and its helpers).

The Python source is shallowly embedded:
* `Node` mirrors the `ast` nodes that can occur in `mode="eval"` parses of
  the expression subset relevant here (literals, operators, comparisons,
  list/tuple literals, list comprehensions, attribute access, names, calls).
* `allowedInstance` mirrors `isinstance(node, _ALLOWED_NODES)`: the source
  tuple contains both concrete classes (`ast.Add`, `ast.Name`, ...) and the
  abstract grammar base classes (`ast.expr`, `ast.operator`, ...), so the
  check consults the node's Python class ancestry (`mro`).
* `visit`/`genericVisit`/`visits` mirror `DatabooksParser.visit` dispatch,
  `generic_visit`, and the handlers `visit_Name`, `visit_Attribute`,
  `visit_comprehension`; `evalExpr` mirrors `eval(compile(tree), self.scope)`.
* All recursive functions take a fuel argument (first parameter) so that
  they are structurally recursive and kernel-computable; the source's
  recursion always terminates on finite trees and lists, fuel only bounds
  the recursion depth (`none` = fuel exhausted, never happens for the
  concrete inputs below with the fuel supplied).
* `DatabooksBase` values (pydantic records) are not in the provided source
  tree; they are modelled from the spec as `Value.structured` carrying the
  declared field names (see `structFields`, `allowedAttrs`).
* Mutable aliasing of caller-supplied objects is modelled with an explicit
  store: `Value.ref a` is a handle into a `Store`; `resolve` models
  `copy.deepcopy` (it replaces every handle by the referenced contents),
  and the evaluator dereferences handles via `forceV` where Python would
  touch the live object.
-/

namespace Databooks

/-- Payload of an `ast.Constant` node. -/
inductive Const where
  | int (n : Int)
  | str (s : String)
  | bool (b : Bool)
  | none
deriving DecidableEq, Repr

/-- Binary operator kinds (`ast.BinOp.op`) used in the embedding. -/
inductive BinK where
  | add | sub | mult | mod | bitand | bitor | bitxor | lshift | rshift
deriving DecidableEq, Repr

/-- Boolean operator kinds (`ast.BoolOp.op`). -/
inductive BoolK where
  | and | or
deriving DecidableEq, Repr

/-- Unary operator kinds (`ast.UnaryOp.op`). -/
inductive UnK where
  | not | usub | uadd
deriving DecidableEq, Repr

/-- Comparison operator kinds (`ast.Compare.ops` entries). -/
inductive CmpK where
  | eq | noteq | lt | lte | gt | gte | inK | notin
deriving DecidableEq, Repr

/-- Python runtime values visible to the engine.  `structured` models a
`DatabooksBase` (pydantic) record with its declared fields, per the spec's
`StructuredValue`.  `builtin` is one of the callables of
`_ALLOWED_BUILTINS`, identified by `__name__`.  `ref` is a handle to a
caller-owned mutable object living in a `Store` (used to model
`copy.deepcopy` in `__init__`).  Python tuples are modelled as `list`. -/
inductive Value where
  | int (n : Int)
  | bool (b : Bool)
  | str (s : String)
  | none
  | ellipsis
  | list (elts : List Value)
  | structured (fields : List (String × Value))
  | builtin (name : String)
  | ref (addr : Nat)
deriving Repr

mutual
/-- Structural equality test on values. -/
def beqV : Value → Value → Bool
  | .int a, .int b => a == b
  | .bool a, .bool b => a == b
  | .str a, .str b => a == b
  | .none, .none => true
  | .ellipsis, .ellipsis => true
  | .list a, .list b => beqL a b
  | .structured a, .structured b => beqF a b
  | .builtin a, .builtin b => a == b
  | .ref a, .ref b => a == b
  | _, _ => false

/-- `beqV` pointwise on lists. -/
def beqL : List Value → List Value → Bool
  | [], [] => true
  | a :: as', b :: bs' => beqV a b && beqL as' bs'
  | _, _ => false

/-- `beqV` pointwise on field lists. -/
def beqF : List (String × Value) → List (String × Value) → Bool
  | [], [] => true
  | (k, a) :: as', (l, b) :: bs' => k == l && beqV a b && beqF as' bs'
  | _, _ => false
end

mutual
theorem beqV_iff : ∀ a b : Value, beqV a b = true ↔ a = b
  | .int _, b | .bool _, b | .str _, b | .none, b | .ellipsis, b
  | .builtin _, b | .ref _, b => by
    cases b <;> simp [beqV]
  | .list as', b => by
    cases b <;> simp [beqV]
    exact beqL_iff as' _
  | .structured fs, b => by
    cases b <;> simp [beqV]
    exact beqF_iff fs _

theorem beqL_iff : ∀ a b : List Value, beqL a b = true ↔ a = b
  | [], b => by cases b <;> simp [beqL]
  | a :: as', b => by
    cases b with
    | nil => simp [beqL]
    | cons b bs' => simp [beqL, beqV_iff a b, beqL_iff as' bs']

theorem beqF_iff : ∀ a b : List (String × Value), beqF a b = true ↔ a = b
  | [], b => by cases b <;> simp [beqF]
  | (k, a) :: as', b => by
    cases b with
    | nil => simp [beqF]
    | cons kb bs' =>
      obtain ⟨l, bv⟩ := kb
      simp [beqF, beqV_iff a bv, beqF_iff as' bs', and_assoc]
end

instance : DecidableEq Value := fun a b => decidable_of_iff _ (beqV_iff a b)

/-- AST nodes of the embedded expression grammar.  Constructor names follow
the Python `ast` class names.  `leaf c` stands for a childless helper node
of class `c` (operator objects such as `Add()` and the `Load()` expression
context), which `generic_visit` also visits.  `keyword` is the `ast.keyword`
node of a keyword argument inside a call. -/
inductive Node where
  | expression (body : Node)
  | constant (c : Const)
  | name (id : String)
  | binop (left : Node) (op : BinK) (right : Node)
  | boolop (op : BoolK) (values : List Node)
  | unaryop (op : UnK) (operand : Node)
  | compare (left : Node) (ops : List CmpK) (comparators : List Node)
  | listlit (elts : List Node)
  | tuplelit (elts : List Node)
  | listcomp (elt : Node) (generators : List Node)
  | comprehension (target : Node) (iter : Node) (ifs : List Node)
  | attribute (value : Node) (attr : String)
  | call (func : Node) (args : List Node) (keywords : List Node)
  | keyword (arg : String) (value : Node)
  | leaf (cls : String)
deriving Repr

/-- Python class name of the operator object carried by a `BinOp`. -/
def BinK.cls : BinK → String
  | .add => "Add" | .sub => "Sub" | .mult => "Mult" | .mod => "Mod"
  | .bitand => "BitAnd" | .bitor => "BitOr" | .bitxor => "BitXor"
  | .lshift => "LShift" | .rshift => "RShift"

/-- Python class name of the operator object carried by a `BoolOp`. -/
def BoolK.cls : BoolK → String
  | .and => "And" | .or => "Or"

/-- Python class name of the operator object carried by a `UnaryOp`. -/
def UnK.cls : UnK → String
  | .not => "Not" | .usub => "USub" | .uadd => "UAdd"

/-- Python class name of a comparison operator object. -/
def CmpK.cls : CmpK → String
  | .eq => "Eq" | .noteq => "NotEq" | .lt => "Lt" | .lte => "LtE"
  | .gt => "Gt" | .gte => "GtE" | .inK => "In" | .notin => "NotIn"

/-- Python class name (`type(node).__name__`) of a node. -/
def Node.clsName : Node → String
  | .expression _ => "Expression"
  | .constant _ => "Constant"
  | .name _ => "Name"
  | .binop .. => "BinOp"
  | .boolop .. => "BoolOp"
  | .unaryop .. => "UnaryOp"
  | .compare .. => "Compare"
  | .listlit _ => "List"
  | .tuplelit _ => "Tuple"
  | .listcomp .. => "ListComp"
  | .comprehension .. => "comprehension"
  | .attribute .. => "Attribute"
  | .call .. => "Call"
  | .keyword .. => "keyword"
  | .leaf c => c

/-- Proper ast superclasses (excluding `ast.AST`) of an ast class, as fixed
by CPython's `ast` module: every expression node derives from `ast.expr`,
operator objects derive from `ast.operator` / `ast.boolop` / `ast.unaryop` /
`ast.cmpop`, `Load` derives from `ast.expr_context`, `Expression` from
`ast.mod`; `ast.comprehension` and `ast.keyword` derive from `ast.AST`
directly. -/
def astBases : String → List String
  | "Expression" => ["mod"]
  | "Constant" | "Name" | "BinOp" | "BoolOp" | "UnaryOp" | "Compare"
  | "List" | "Tuple" | "ListComp" | "Attribute" | "Call" => ["expr"]
  | "Load" => ["expr_context"]
  | "Add" | "Sub" | "Mult" | "Mod" | "BitAnd" | "BitOr" | "BitXor"
  | "LShift" | "RShift" => ["operator"]
  | "And" | "Or" => ["boolop"]
  | "Not" | "USub" | "UAdd" => ["unaryop"]
  | "Eq" | "NotEq" | "Lt" | "LtE" | "Gt" | "GtE" | "Is" | "IsNot"
  | "In" | "NotIn" => ["cmpop"]
  | _ => []

/-- Method resolution order of a node's class, restricted to `ast` classes. -/
def Node.mro (n : Node) : List String :=
  n.clsName :: astBases n.clsName ++ ["AST"]

/-- The class names appearing in `_ALLOWED_NODES`, transcribed in source
order from `databooks/affirm.py`. -/
def allowedNames : List String :=
  ["Add", "And", "BinOp", "BitAnd", "BitOr", "BitXor", "BoolOp", "boolop",
   "cmpop", "Compare", "comprehension", "Constant", "Dict", "Eq", "Expr",
   "expr", "expr_context", "Expression", "For", "Gt", "GtE", "In", "Is",
   "IsNot", "List", "ListComp", "Load", "LShift", "Lt", "LtE", "Mod",
   "Name", "Not", "NotEq", "NotIn", "Num", "operator", "Or", "RShift",
   "Set", "Slice", "slice", "Str", "Sub", "Tuple", "UAdd", "UnaryOp",
   "unaryop", "USub"]

/-- `isinstance(node, _ALLOWED_NODES)`: true iff the node's class or one of
its ast superclasses appears in the tuple. -/
def allowedInstance (n : Node) : Bool :=
  n.mro.any (fun c => allowedNames.contains c)

/-- Whether the node's own class (its kind) is literally an entry of the
`_ALLOWED_NODES` enumeration.  This is the spec's reading of "kind in the
allow-list"; it differs from `allowedInstance` exactly on the classes that
are admitted only through an abstract base such as `ast.expr`. -/
def kindListed (n : Node) : Bool :=
  allowedNames.contains n.clsName

/-- `__name__`s of the `_ALLOWED_BUILTINS` tuple. -/
def builtinNames : List String :=
  ["all", "any", "enumerate", "filter", "hasattr", "len", "list", "range",
   "sorted"]

/-- A Python dict from identifiers to values, modelled as an association
list where the first matching key wins (later `dinsert`s shadow earlier
entries, like dict assignment). -/
abbrev Env : Type := List (String × Value)

/-- Dict lookup. -/
def dlookup : Env → String → Option Value
  | [], _ => Option.none
  | (k, v) :: rest, key => if k = key then some v else dlookup rest key

/-- Dict assignment `d[k] = v` (observable only through `dlookup`). -/
def dinsert (k : String) (v : Value) (e : Env) : Env := (k, v) :: e

/-- The store of caller-owned mutable objects; `Value.ref a` denotes entry
`a`.  Mutating a caller object between evaluations is modelled by running
the next evaluation against a different store. -/
abbrev Store : Type := List Value

/-- Closed taxonomy of failures the engine can signal, one constructor per
raise site of `affirm.py` plus the exception classes Python itself raises
during evaluation:
* `disallowedSyntax` — `generic_visit`'s `ValueError("Invalid node ...")`;
* `unknownName` — `visit_Name`'s `ValueError("Expected name to be one of ...")`;
* `malformedTarget` — `visit_comprehension`'s `RuntimeError` on a non-`Name`
  target;
* `attrBase` — `visit_Attribute`'s `ValueError` when the base is neither a
  `Name` nor an `Attribute`;
* `disallowedAttribute` — `visit_Attribute`'s `ValueError("Expected attribute
  to be one of ...")`, carrying the permitted field names;
* `keyError` — the uncaught `KeyError` from `self.names[node.value.id]`;
* `nameError`, `typeError`, `attributeError`, `zeroDivision` — exceptions
  raised by the Python runtime while evaluating (`eval`, `iter`, operators,
  `getattr`). -/
inductive Err where
  | disallowedSyntax (cls : String)
  | unknownName (id : String)
  | malformedTarget (cls : String)
  | attrBase (cls : String)
  | disallowedAttribute (allowed : List String) (attr : String)
  | keyError (id : String)
  | nameError (id : String)
  | typeError
  | attributeError (attr : String)
  | zeroDivision
deriving DecidableEq, Repr

/-- Errors produced by executing code (the Python runtime), as opposed to the
validator's own raise statements. -/
def Err.isRuntime : Err → Bool
  | .nameError _ | .typeError | .attributeError _ | .zeroDivision => true
  | _ => false

/-- Dereference a handle against the current store (Python simply follows
the object reference).  Values that are not handles are returned as-is.
A dangling handle denotes an object this store no longer describes. -/
def forceV (s : Store) : Value → Except Err Value
  | .ref a => match s.get? a with
    | some w => .ok w
    | Option.none => .error .typeError
  | v => .ok v

mutual
/-- No `ref` handle occurs anywhere inside the value: the value is a private
deep copy, unreachable from caller-owned objects. -/
def refFree : Value → Bool
  | .list es => refFreeL es
  | .structured fs => refFreeF fs
  | .ref _ => false
  | _ => true

/-- `refFree` on every list element. -/
def refFreeL : List Value → Bool
  | [] => true
  | v :: vs => refFree v && refFreeL vs

/-- `refFree` on every field value. -/
def refFreeF : List (String × Value) → Bool
  | [] => true
  | (_, v) :: fs => refFree v && refFreeF fs
end

mutual
/-- `copy.deepcopy` against a store: replaces every handle by a deep copy of
the referenced contents.  Fuel bounds the recursion depth. -/
def resolve : Nat → Store → Value → Option Value
  | 0, _, _ => Option.none
  | fuel + 1, s, v => match v with
    | .ref a => match s.get? a with
      | some w => resolve fuel s w
      | Option.none => Option.none
    | .list es => (resolveL fuel s es).map .list
    | .structured fs => (resolveF fuel s fs).map .structured
    | w => some w

/-- `resolve` over list elements. -/
def resolveL : Nat → Store → List Value → Option (List Value)
  | 0, _, _ => Option.none
  | fuel + 1, s, l => match l with
    | [] => some []
    | v :: vs => match resolve fuel s v, resolveL fuel s vs with
      | some w, some ws => some (w :: ws)
      | _, _ => Option.none

/-- `resolve` over record fields. -/
def resolveF : Nat → Store → List (String × Value) → Option (List (String × Value))
  | 0, _, _ => Option.none
  | fuel + 1, s, l => match l with
    | [] => some []
    | (k, v) :: fs => match resolve fuel s v, resolveF fuel s fs with
      | some w, some ws => some ((k, w) :: ws)
      | _, _ => Option.none
end

/-- Deep-copy an environment of caller-supplied variables. -/
def resolveEnv (fuel : Nat) (s : Store) : Env → Option Env
  | [] => some []
  | (k, v) :: rest => match resolve fuel s v, resolveEnv fuel s rest with
    | some w, some ws => some ((k, w) :: ws)
    | _, _ => Option.none

instance {ε α : Type} [DecidableEq ε] [DecidableEq α] : DecidableEq (Except ε α) := fun x y =>
  match x, y with
  | .ok a, .ok b =>
    if h : a = b then .isTrue (by rw [h]) else .isFalse (fun hh => h (Except.ok.inj hh))
  | .error a, .error b =>
    if h : a = b then .isTrue (by rw [h]) else .isFalse (fun hh => h (Except.error.inj hh))
  | .ok _, .error _ => .isFalse (fun hh => Except.noConfusion hh)
  | .error _, .ok _ => .isFalse (fun hh => Except.noConfusion hh)

/-- Result of a fuel-bounded computation: `none` is fuel exhaustion. -/
abbrev R (α : Type) : Type := Option (Except Err α)

/-- Successful result. -/
def rok {α : Type} (a : α) : R α := some (.ok a)

/-- Failing result. -/
def rerr {α : Type} (e : Err) : R α := some (.error e)

/-- Sequencing of fuel-bounded computations, propagating exhaustion and
errors. -/
def rbind {α β : Type} : R α → (α → R β) → R β
  | Option.none, _ => Option.none
  | some (.error e), _ => some (.error e)
  | some (.ok a), f => f a

/-- Sequencing an exception-throwing step into a fuel-bounded computation. -/
def rbindx {α β : Type} : Except Err α → (α → R β) → R β
  | .error e, _ => some (.error e)
  | .ok a, f => f a

/-- Value of an `ast.Constant`. -/
def Const.val : Const → Value
  | .int n => .int n
  | .str s => .str s
  | .bool b => .bool b
  | .none => .none

/-- Python truthiness (`bool(v)`).  Handles must be dereferenced before the
test; a raw handle signals a model error. -/
def truthy : Value → Except Err Bool
  | .int n => .ok (n != 0)
  | .bool b => .ok b
  | .str s => .ok (s != "")
  | .none => .ok false
  | .ellipsis => .ok true
  | .list l => .ok (!l.isEmpty)
  | .structured _ => .ok true
  | .builtin _ => .ok true
  | .ref _ => .error .typeError

/-- Numeric view of a value (`bool` coerces to `0`/`1` in Python
arithmetic and comparisons). -/
def pyNum : Value → Option Int
  | .int n => some n
  | .bool b => some (if b then 1 else 0)
  | _ => Option.none

mutual
/-- Python `==` on the modelled values (numeric cross-type equality between
`bool` and `int`; structural equality on strings, lists and records;
`False` for unrelated types). -/
def pyEq : Value → Value → Bool
  | .int a, .int b => a == b
  | .int a, .bool b => a == (if b then (1 : Int) else 0)
  | .bool a, .int b => (if a then (1 : Int) else 0) == b
  | .bool a, .bool b => a == b
  | .str a, .str b => a == b
  | .none, .none => true
  | .ellipsis, .ellipsis => true
  | .list a, .list b => pyEqL a b
  | .structured a, .structured b => pyEqF a b
  | .builtin a, .builtin b => a == b
  | .ref a, .ref b => a == b
  | _, _ => false

/-- `pyEq` pointwise on lists. -/
def pyEqL : List Value → List Value → Bool
  | [], [] => true
  | a :: as', b :: bs' => pyEq a b && pyEqL as' bs'
  | _, _ => false

/-- `pyEq` pointwise on record fields. -/
def pyEqF : List (String × Value) → List (String × Value) → Bool
  | [], [] => true
  | (k, a) :: as', (l, b) :: bs' => k == l && pyEq a b && pyEqF as' bs'
  | _, _ => false
end

/-- Python `<` on the modelled values: numeric (with `bool` coercion) and
string ordering; anything else raises `TypeError`. -/
def pyLt : Value → Value → Except Err Bool
  | a, b => match pyNum a, pyNum b with
    | some x, some y => .ok (x < y)
    | _, _ => match a, b with
      | .str x, .str y => .ok (x < y)
      | _, _ => .error .typeError

/-- One comparison operator applied to two values.  Membership (`in`) is
modelled for lists; `is`/`is not` do not occur (`ast.Is`/`ast.IsNot` carry
no operand semantics needed by any claim and are left out of `CmpK`). -/
def applyCmp : CmpK → Value → Value → Except Err Bool
  | .eq, a, b => .ok (pyEq a b)
  | .noteq, a, b => .ok (!pyEq a b)
  | .lt, a, b => pyLt a b
  | .gt, a, b => pyLt b a
  | .lte, a, b => (pyLt b a).map (!·)
  | .gte, a, b => (pyLt a b).map (!·)
  | .inK, a, b => match b with
    | .list l => .ok (l.any (pyEq a ·))
    | _ => .error .typeError
  | .notin, a, b => match b with
    | .list l => .ok (!l.any (pyEq a ·))
    | _ => .error .typeError

/-- One binary operator applied to two values.  Arithmetic follows Python:
`bool` coerces to int, `%` is floor modulus (`Int.fmod`), shifts reject
negative counts, `+` also concatenates strings and lists. -/
def applyBin : BinK → Value → Value → Except Err Value
  | .add, a, b => match pyNum a, pyNum b with
    | some x, some y => .ok (.int (x + y))
    | _, _ => match a, b with
      | .str x, .str y => .ok (.str (x ++ y))
      | .list x, .list y => .ok (.list (x ++ y))
      | _, _ => .error .typeError
  | .sub, a, b => match pyNum a, pyNum b with
    | some x, some y => .ok (.int (x - y))
    | _, _ => .error .typeError
  | .mult, a, b => match pyNum a, pyNum b with
    | some x, some y => .ok (.int (x * y))
    | _, _ => .error .typeError
  | .mod, a, b => match pyNum a, pyNum b with
    | some x, some y => if y = 0 then .error .zeroDivision else .ok (.int (Int.fmod x y))
    | _, _ => .error .typeError
  | .bitand, a, b => match a, b with
    | .int x, .int y => .ok (.int (Int.land x y))
    | _, _ => .error .typeError
  | .bitor, a, b => match a, b with
    | .int x, .int y => .ok (.int (Int.lor x y))
    | _, _ => .error .typeError
  | .bitxor, a, b => match a, b with
    | .int x, .int y => .ok (.int (Int.xor x y))
    | _, _ => .error .typeError
  | .lshift, a, b => match a, b with
    | .int x, .int y => if y < 0 then .error .typeError else .ok (.int (x * 2 ^ y.toNat))
    | _, _ => .error .typeError
  | .rshift, a, b => match a, b with
    | .int x, .int y => if y < 0 then .error .typeError else .ok (.int (Int.fdiv x (2 ^ y.toNat)))
    | _, _ => .error .typeError

/-- One unary operator applied to a value. -/
def applyUn : UnK → Value → Except Err Value
  | .not, a => (truthy a).map (fun b => .bool (!b))
  | .usub, a => match pyNum a with
    | some x => .ok (.int (-x))
    | _ => .error .typeError
  | .uadd, a => match pyNum a with
    | some x => .ok (.int x)
    | _ => .error .typeError

/-- Apply a callable value to positional arguments.  `len`, `all`, `any` and
`list` are modelled; the remaining registered builtins (`enumerate`,
`filter`, `hasattr`, `range`, `sorted`) are left unmodelled (they answer
`TypeError` here; no claim depends on their call behaviour).  Applying a
non-callable raises `TypeError`, as in Python. -/
def applyCall : Value → List Value → Except Err Value
  | .builtin "len", [.list l] => .ok (.int l.length)
  | .builtin "len", [.str s] => .ok (.int s.length)
  | .builtin "all", [.list l] =>
    (l.foldlM (fun acc v => (truthy v).map (acc && ·)) true).map .bool
  | .builtin "any", [.list l] =>
    (l.foldlM (fun acc v => (truthy v).map (acc || ·)) false).map .bool
  | .builtin "list", [.list l] => .ok (.list l)
  | _, _ => .error .typeError

mutual
/-- `eval(compile(tree, "", mode="eval"), scope)` on the embedded grammar.
`g` is the global dict (`self.scope`, whose `__builtins__` entry Python
consults after a failed global lookup — modelled by the `builtinNames`
fallback in the `name` case), `loc` the local bindings introduced by
enclosing comprehensions. -/
def evalExpr : Nat → Store → Env → Env → Node → R Value
  | 0, _, _, _, _ => Option.none
  | fuel + 1, s, g, loc, n => match n with
    | .expression b => evalExpr fuel s g loc b
    | .constant c => rok c.val
    | .name id =>
      match dlookup loc id with
      | some v => rbindx (forceV s v) rok
      | Option.none => match dlookup g id with
        | some v => rbindx (forceV s v) rok
        | Option.none =>
          if builtinNames.contains id then rok (.builtin id)
          else rerr (.nameError id)
    | .binop l op r =>
      rbind (evalExpr fuel s g loc l) fun v1 =>
      rbind (evalExpr fuel s g loc r) fun v2 =>
      rbindx (applyBin op v1 v2) rok
    | .boolop op vs => evalBool fuel s g loc op vs
    | .unaryop op e =>
      rbind (evalExpr fuel s g loc e) fun v => rbindx (applyUn op v) rok
    | .compare l ops cs =>
      rbind (evalExpr fuel s g loc l) fun v => evalCmp fuel s g loc v ops cs
    | .listlit es => rbind (evalList fuel s g loc es) fun vs => rok (.list vs)
    | .tuplelit es => rbind (evalList fuel s g loc es) fun vs => rok (.list vs)
    | .listcomp elt gens =>
      rbind (evalComp fuel s g loc gens elt) fun vs => rok (.list vs)
    | .attribute v a =>
      rbind (evalExpr fuel s g loc v) fun bv =>
      rbindx (forceV s bv) fun bv' =>
      match bv' with
      | .structured fs => match dlookup fs a with
        | some fv => rbindx (forceV s fv) rok
        | Option.none => rerr (.attributeError a)
      | _ => rerr (.attributeError a)
    | .call fn args kws =>
      if kws.isEmpty then
        rbind (evalExpr fuel s g loc fn) fun fv =>
        rbind (evalList fuel s g loc args) fun avs =>
        rbindx (applyCall fv avs) rok
      else rerr .typeError
    | .comprehension .. => rerr .typeError
    | .keyword .. => rerr .typeError
    | .leaf _ => rerr .typeError

/-- Left-to-right evaluation of an expression list. -/
def evalList : Nat → Store → Env → Env → List Node → R (List Value)
  | 0, _, _, _, _ => Option.none
  | fuel + 1, s, g, loc, l => match l with
    | [] => rok []
    | e :: es =>
      rbind (evalExpr fuel s g loc e) fun v =>
      rbind (evalList fuel s g loc es) fun vs => rok (v :: vs)

/-- Short-circuiting `and`/`or` over the operand list, returning the
deciding operand's value as Python does. -/
def evalBool : Nat → Store → Env → Env → BoolK → List Node → R Value
  | 0, _, _, _, _, _ => Option.none
  | fuel + 1, s, g, loc, op, l => match l with
    | [] => rerr .typeError
    | [e] => evalExpr fuel s g loc e
    | e :: es =>
      rbind (evalExpr fuel s g loc e) fun v =>
      rbindx (truthy v) fun t =>
      match op, t with
      | .and, false => rok v
      | .and, true => evalBool fuel s g loc op es
      | .or, true => rok v
      | .or, false => evalBool fuel s g loc op es

/-- Short-circuiting comparison chain `v op₁ c₁ op₂ c₂ ...`. -/
def evalCmp : Nat → Store → Env → Env → Value → List CmpK → List Node → R Value
  | 0, _, _, _, _, _, _ => Option.none
  | fuel + 1, s, g, loc, v, ops, cs => match ops, cs with
    | [], [] => rok (.bool true)
    | op :: ops', c :: cs' =>
      rbind (evalExpr fuel s g loc c) fun w =>
      rbindx (applyCmp op v w) fun b =>
      if b then evalCmp fuel s g loc w ops' cs' else rok (.bool false)
    | _, _ => rerr .typeError

/-- Evaluation of a comprehension's generator list: each generator iterates
its (forced) iterable, binds the loop variable locally, filters by the
`if` conditions and descends into the remaining generators, finally
evaluating the element expression. -/
def evalComp : Nat → Store → Env → Env → List Node → Node → R (List Value)
  | 0, _, _, _, _, _ => Option.none
  | fuel + 1, s, g, loc, gens, elt => match gens with
    | [] => rbind (evalExpr fuel s g loc elt) fun v => rok [v]
    | .comprehension (.name t) iter ifs :: rest =>
      rbind (evalExpr fuel s g loc iter) fun itv =>
      rbindx (forceV s itv) fun itv' =>
      match itv' with
      | .list l => evalElems fuel s g loc t ifs rest elt l
      | _ => rerr .typeError
    | _ :: _ => rerr .typeError

/-- Iteration of one generator over the concrete elements of its iterable. -/
def evalElems : Nat → Store → Env → Env → String → List Node → List Node → Node → List Value → R (List Value)
  | 0, _, _, _, _, _, _, _, _ => Option.none
  | fuel + 1, s, g, loc, t, ifs, rest, elt, l => match l with
    | [] => rok []
    | x :: xs =>
      rbind (evalIfs fuel s g (dinsert t x loc) ifs) fun keep =>
      rbind (if keep then evalComp fuel s g (dinsert t x loc) rest elt else rok [])
        fun vs1 =>
      rbind (evalElems fuel s g loc t ifs rest elt xs) fun vs2 => rok (vs1 ++ vs2)

/-- Conjunction of a generator's `if` conditions, short-circuiting. -/
def evalIfs : Nat → Store → Env → Env → List Node → R Bool
  | 0, _, _, _, _ => Option.none
  | fuel + 1, s, g, loc, l => match l with
    | [] => rok true
    | c :: cs =>
      rbind (evalExpr fuel s g loc c) fun v =>
      rbindx (truthy v) fun b =>
      if b then evalIfs fuel s g loc cs else rok false
end

/-- The engine's state: `names` is `self.names` (deep-copied variables, later
extended in place by `visit_comprehension`), `scopeVars` the variable part
of `self.scope`, captured once in `__init__` and never updated afterwards
(`self.scope`'s `__builtins__` entry is the fixed builtins dict, modelled by
the `builtinNames` fallback during name resolution). -/
structure DatabooksParser where
  names : Env
  scopeVars : Env
deriving DecidableEq

/-- `DatabooksParser.__init__`: `self.names = deepcopy(variables) or {}`
(the `or {}` only replaces an empty dict by an empty dict) and
`self.scope = {**self.names, "__builtins__": self.builtins}`.  `none` means
the deep-copy fuel was insufficient. -/
def DatabooksParser.init (fuel : Nat) (s : Store) (vars : Env) :
    Option DatabooksParser :=
  match resolveEnv fuel s vars with
  | some nm => some { names := nm, scopeVars := nm }
  | Option.none => Option.none

/-- The declared fields of a `DatabooksBase` record, if the value is one
(`isinstance(obj, DatabooksBase)` plus `dict(el)`). -/
def structFields : Value → Option (List (String × Value))
  | .structured fs => some fs
  | _ => Option.none

/-- Modelled from the spec: `get_keys(obj.dict())` (from `databooks.common`,
not part of the provided sources) yields a `StructuredValue`'s declared
field names; every other value declares none ("`attr` is legal iff it is one
of that value's declared field names; otherwise fail"). -/
def allowedAttrs (obj : Value) : List String :=
  match obj with
  | .structured fs => fs.map Prod.fst
  | _ => []

/-- Python dict merge `{**a, **b}`: keys of `a` in order with values
overridden by `b` where present, followed by the keys only `b` has. -/
def mergeTwo (a b : List (String × Value)) : List (String × Value) :=
  (a.map fun kv => match dlookup b kv.1 with
    | some w => (kv.1, w)
    | Option.none => kv)
  ++ b.filter (fun kv => (dlookup a kv.1).isNone)

/-- The value `visit_comprehension` binds the loop variable to, given the
elements produced by the iterable: `databooks_el` keeps the `DatabooksBase`
elements; if any exist, a synthetic record merging their field dicts
(`reduce(lambda a, b: {**a, **b}, ...)` then `DatabooksBase(**d_attrs)`),
otherwise the attribute-less `Ellipsis`. -/
def compBind (l : List Value) : Value :=
  match l.filterMap structFields with
  | [] => .ellipsis
  | d :: ds => .structured (ds.foldl mergeTwo d)

/-- The AST children `ast.iter_fields` exposes, in the order `generic_visit`
walks them: source order, except that a `generators` field is sorted first
(`sorted(ast.iter_fields(node), key=lambda f: f[0] != "generators")`,
a stable sort).  Non-AST fields (identifier strings, the `is_async` flag)
are skipped; operator objects and the `Load` context are AST children. -/
def Node.children : Node → List Node
  | .expression b => [b]
  | .constant _ => []
  | .name _ => [.leaf "Load"]
  | .binop l op r => [l, .leaf op.cls, r]
  | .boolop op vs => .leaf op.cls :: vs
  | .unaryop op e => [.leaf op.cls, e]
  | .compare l ops cs => l :: ((ops.map fun o => Node.leaf o.cls) ++ cs)
  | .listlit es => es ++ [.leaf "Load"]
  | .tuplelit es => es ++ [.leaf "Load"]
  | .listcomp elt gens => gens ++ [elt]
  | .comprehension t i ifs => t :: i :: ifs
  | .attribute v _ => [v, .leaf "Load"]
  | .call fn args kws => fn :: (args ++ kws)
  | .keyword _ v => [v]
  | .leaf _ => []

mutual
/-- `NodeVisitor.visit` dispatch: `visit_Name`, `visit_Attribute` and
`visit_comprehension` handle their exact classes, everything else goes to
`generic_visit`.

* `visit_Name`: the identifier must be a key of
  `{**self.names, **self.builtins}`, else `ValueError` (`unknownName`);
  then `generic_visit`.
* `visit_Attribute`: the base must be a `Name` or an `Attribute`
  (else `ValueError`, `attrBase`); for a `Name` base the handler reads
  `self.names[id]` directly (uncaught `KeyError` when absent) and demands
  the attribute be among the object's declared fields (else `ValueError`,
  `disallowedAttribute`); an `Attribute` base is not re-inspected; then
  `generic_visit`.
* `visit_comprehension`: the target must be a `Name` (else `RuntimeError`,
  `malformedTarget`); the iterable is eagerly evaluated via `_get_iter`
  (which itself validates and then executes `ast.Expression(body=node.iter)`
  against the frozen `self.scope`); the loop variable is then assigned into
  `self.names` (`compBind`) — with no save or restore of any previous
  binding — and `generic_visit` walks the comprehension's fields. -/
def visit : Nat → Store → DatabooksParser → Node → R DatabooksParser
  | 0, _, _, _ => Option.none
  | fuel + 1, s, p, n => match n with
    | .name id =>
      if (dlookup p.names id).isSome || builtinNames.contains id then
        genericVisit fuel s p (.name id)
      else rerr (.unknownName id)
    | .attribute v a =>
      match v with
      | .attribute v' a' => genericVisit fuel s p (.attribute (.attribute v' a') a)
      | .name id =>
        (match dlookup p.names id with
        | Option.none => rerr (.keyError id)
        | some obj =>
          if (allowedAttrs obj).contains a then
            genericVisit fuel s p (.attribute (.name id) a)
          else rerr (.disallowedAttribute (allowedAttrs obj) a))
      | other => rerr (.attrBase other.clsName)
    | .comprehension t iter ifs =>
      match t with
      | .name tid =>
        rbind (getIter fuel s p iter) fun li =>
        genericVisit fuel s
          { li.2 with names := dinsert tid (compBind li.1) li.2.names }
          (.comprehension (.name tid) iter ifs)
      | _ => rerr (.malformedTarget t.clsName)
    | _ => genericVisit fuel s p n

/-- `DatabooksParser.generic_visit`: reject any node failing
`isinstance(node, _ALLOWED_NODES)` (`ValueError("Invalid node ...")`),
then visit the children, generators first. -/
def genericVisit : Nat → Store → DatabooksParser → Node → R DatabooksParser
  | 0, _, _, _ => Option.none
  | fuel + 1, s, p, n =>
    if allowedInstance n then visits fuel s p n.children
    else rerr (.disallowedSyntax n.clsName)

/-- Sequential visit of a node list, threading the (mutated) parser. -/
def visits : Nat → Store → DatabooksParser → List Node → R DatabooksParser
  | 0, _, _, _ => Option.none
  | fuel + 1, s, p, l => match l with
    | [] => rok p
    | c :: cs => rbind (visit fuel s p c) fun p' => visits fuel s p' cs

/-- `DatabooksParser._get_iter`: wrap the iterable expression in
`ast.Expression`, run `safe_eval_ast` on it (validate, then execute against
the frozen `self.scope`), and apply `iter(...)` — modelled as demanding a
list (a non-iterable raises `TypeError`).  Returns the produced elements
and the parser state as mutated by the validation part. -/
def getIter : Nat → Store → DatabooksParser → Node → R (List Value × DatabooksParser)
  | 0, _, _, _ => Option.none
  | fuel + 1, s, p, n =>
    rbind (visit fuel s p (.expression n)) fun p' =>
    rbind (evalExpr fuel s p'.scopeVars [] (.expression n)) fun v =>
    rbindx (forceV s v) fun v' =>
    match v' with
    | .list l => rok (l, p')
    | _ => rerr .typeError
end

/-- `DatabooksParser.safe_eval_ast`: `self.visit(ast_tree)` followed by
`eval(compile(ast_tree, "", "eval"), self.scope)`.  The post-validation
parser state is returned alongside the value (the source keeps it in the
object). -/
def safeEvalAst (fuel : Nat) (s : Store) (p : DatabooksParser) (tree : Node) :
    R (Value × DatabooksParser) :=
  rbind (visit fuel s p tree) fun p' =>
  rbind (evalExpr fuel s p'.scopeVars [] tree) fun v => rok (v, p')

mutual
/-- Every node of the tree (including operator objects and expression
contexts) passes `isinstance(node, _ALLOWED_NODES)`. -/
def allAllowed : Node → Bool
  | .expression b => allowedInstance (.expression b) && allAllowed b
  | .constant c => allowedInstance (.constant c)
  | .name id => allowedInstance (.name id) && allowedInstance (.leaf "Load")
  | .binop l op r =>
    allowedInstance (.binop l op r) &&
      (allAllowed l && (allowedInstance (.leaf op.cls) && allAllowed r))
  | .boolop op vs =>
    allowedInstance (.boolop op vs) &&
      (allowedInstance (.leaf op.cls) && allAllowedL vs)
  | .unaryop op e =>
    allowedInstance (.unaryop op e) &&
      (allowedInstance (.leaf op.cls) && allAllowed e)
  | .compare l ops cs =>
    allowedInstance (.compare l ops cs) &&
      (allAllowed l &&
        (ops.all (fun o => allowedInstance (.leaf o.cls)) && allAllowedL cs))
  | .listlit es =>
    allowedInstance (.listlit es) && (allAllowedL es && allowedInstance (.leaf "Load"))
  | .tuplelit es =>
    allowedInstance (.tuplelit es) && (allAllowedL es && allowedInstance (.leaf "Load"))
  | .listcomp elt gens =>
    allowedInstance (.listcomp elt gens) && (allAllowedL gens && allAllowed elt)
  | .comprehension t i ifs =>
    allowedInstance (.comprehension t i ifs) &&
      (allAllowed t && (allAllowed i && allAllowedL ifs))
  | .attribute v a =>
    allowedInstance (.attribute v a) && (allAllowed v && allowedInstance (.leaf "Load"))
  | .call fn args kws =>
    allowedInstance (.call fn args kws) &&
      (allAllowed fn && (allAllowedL args && allAllowedL kws))
  | .keyword a v => allowedInstance (.keyword a v) && allAllowed v
  | .leaf c => allowedInstance (.leaf c)

/-- `allAllowed` over a node list. -/
def allAllowedL : List Node → Bool
  | [] => true
  | n :: ns => allAllowed n && allAllowedL ns
end

mutual
/-- The tree contains no comprehension construct (neither `ListComp` nor a
bare `comprehension` clause). -/
def noComp : Node → Bool
  | .expression b => noComp b
  | .constant _ => true
  | .name _ => true
  | .binop l _ r => noComp l && noComp r
  | .boolop _ vs => noCompL vs
  | .unaryop _ e => noComp e
  | .compare l _ cs => noComp l && noCompL cs
  | .listlit es => noCompL es
  | .tuplelit es => noCompL es
  | .listcomp _ _ => false
  | .comprehension _ _ _ => false
  | .attribute v _ => noComp v
  | .call fn args kws => noComp fn && (noCompL args && noCompL kws)
  | .keyword _ v => noComp v
  | .leaf _ => true

/-- `noComp` over a node list. -/
def noCompL : List Node → Bool
  | [] => true
  | n :: ns => noComp n && noCompL ns
end

/-- Every value of the environment is handle-free (a private deep copy). -/
def refFreeEnv : Env → Bool := refFreeF

theorem rbind_ok_iff {α β : Type} {x : R α} {f : α → R β} {b : β} :
    rbind x f = rok b ↔ ∃ a, x = rok a ∧ f a = rok b := by
  cases x with
  | none => simp [rbind, rok]
  | some e => cases e with
    | error er => simp [rbind, rok]
    | ok a => simp [rbind, rok]

theorem rbind_err_iff {α β : Type} {x : R α} {f : α → R β} {e : Err} :
    rbind x f = rerr e ↔ x = rerr e ∨ ∃ a, x = rok a ∧ f a = rerr e := by
  cases x with
  | none => simp [rbind, rerr, rok]
  | some ex => cases ex with
    | error er => simp [rbind, rerr, rok]
    | ok a => simp [rbind, rerr, rok]

theorem rbindx_ok_iff {α β : Type} {x : Except Err α} {f : α → R β} {b : β} :
    rbindx x f = rok b ↔ ∃ a, x = .ok a ∧ f a = rok b := by
  cases x with
  | error er => simp [rbindx, rok]
  | ok a => simp [rbindx, rok]

theorem rbindx_err_iff {α β : Type} {x : Except Err α} {f : α → R β} {e : Err} :
    rbindx x f = rerr e ↔ x = .error e ∨ ∃ a, x = .ok a ∧ f a = rerr e := by
  cases x with
  | error er => simp [rbindx, rerr, rok]
  | ok a => simp [rbindx, rerr, rok]

theorem dlookup_dinsert (k k' : String) (v : Value) (m : Env) :
    dlookup (dinsert k v m) k' = if k = k' then some v else dlookup m k' := rfl

theorem dlookup_dinsert_isSome {k : String} {m : Env} (t : String) (v : Value)
    (h : (dlookup m k).isSome = true) :
    (dlookup (dinsert t v m) k).isSome = true := by
  rw [dlookup_dinsert]
  split <;> simp [h]

theorem allAllowedL_eq_all (l : List Node) : allAllowedL l = l.all allAllowed := by
  induction l with
  | nil => rfl
  | cons n ns ih => simp [allAllowedL, ih]

theorem noCompL_eq_all (l : List Node) : noCompL l = l.all noComp := by
  induction l with
  | nil => rfl
  | cons n ns ih => simp [noCompL, ih]

theorem allAllowed_leafMap (ops : List CmpK) :
    (ops.map fun o => Node.leaf o.cls).all allAllowed
      = ops.all fun o => allowedInstance (.leaf o.cls) := by
  induction ops with
  | nil => rfl
  | cons o os ih => simp [allAllowed, ih]

theorem allAllowed_children (n : Node) :
    allAllowed n = (allowedInstance n && n.children.all allAllowed) := by
  cases n <;>
    simp [allAllowed, Node.children, allAllowedL_eq_all, List.all_append,
      allAllowed_leafMap]

theorem noComp_children {n : Node} (h : noComp n = true) :
    n.children.all noComp = true := by
  cases n <;>
    simp_all [noComp, Node.children, noCompL_eq_all, List.all_append,
      List.all_map, Function.comp]

/-- If any of the four traversal entry points succeeds, every node of the
tree it walked satisfies `isinstance(node, _ALLOWED_NODES)`: `generic_visit`
is applied to every node (the dedicated handlers re-enter it on their own
node), and it raises `ValueError` on the first failing node. -/
theorem visitAll (fuel : Nat) :
    (∀ s p n p', visit fuel s p n = rok p' → allAllowed n = true) ∧
    (∀ s p n p', genericVisit fuel s p n = rok p' → allAllowed n = true) ∧
    (∀ s p l q, visits fuel s p l = rok q → allAllowedL l = true) ∧
    (∀ s p n r, getIter fuel s p n = rok r → allAllowed n = true) := by
  induction fuel with
  | zero =>
    refine ⟨?_, ?_, ?_, ?_⟩ <;> intro _ _ _ _ h <;>
      simp [visit, genericVisit, visits, getIter, rok] at h
  | succ f ih =>
    obtain ⟨ihv, ihg, ihs, ihgi⟩ := ih
    refine ⟨?_, ?_, ?_, ?_⟩
    · intro s p n p' h
      cases n <;> try (simp only [visit] at h; exact ihg _ _ _ _ h)
      case name id =>
        simp only [visit] at h
        split at h
        · exact ihg _ _ _ _ h
        · simp [rerr, rok] at h
      case comprehension t iter ifs =>
        cases t <;> simp only [visit] at h
        case name tid =>
          obtain ⟨li, _, h2⟩ := rbind_ok_iff.mp h
          exact ihg _ _ _ _ h2
        all_goals simp [rerr, rok] at h
      case _ v a =>
        rcases v with b | c | id | ⟨b₁, b₂, b₃⟩ | ⟨b₁, b₂⟩ | ⟨b₄, b₅⟩ | ⟨c₁, c₂, c₃⟩ | es | es' | ⟨d₁, d₂⟩ | ⟨e₁, e₂, e₃⟩ | ⟨v', a'⟩ | ⟨f₁, f₂, f₃⟩ | ⟨g₁, g₂⟩ | lc <;> simp only [visit] at h
        · simp [rerr, rok] at h
        · simp [rerr, rok] at h
        · split at h
          · simp [rerr, rok] at h
          · split at h
            · exact ihg _ _ _ _ h
            · simp [rerr, rok] at h
        · simp [rerr, rok] at h
        · simp [rerr, rok] at h
        · simp [rerr, rok] at h
        · simp [rerr, rok] at h
        · simp [rerr, rok] at h
        · simp [rerr, rok] at h
        · simp [rerr, rok] at h
        · simp [rerr, rok] at h
        · exact ihg _ _ _ _ h
        · simp [rerr, rok] at h
        · simp [rerr, rok] at h
        · simp [rerr, rok] at h
    · intro s p n p' h
      simp only [genericVisit] at h
      split at h
      · rw [allAllowed_children]
        have := ihs _ _ _ _ h
        rw [allAllowedL_eq_all] at this
        simp_all
      · simp [rerr, rok] at h
    · intro s p l q h
      cases l with
      | nil => rfl
      | cons c cs =>
        simp only [visits] at h
        obtain ⟨p₁, h1, h2⟩ := rbind_ok_iff.mp h
        have hv := ihv _ _ _ _ h1
        have hs := ihs _ _ _ _ h2
        simp [allAllowedL, hv, hs]
    · intro s p n r h
      simp only [getIter] at h
      obtain ⟨p₁, h1, _⟩ := rbind_ok_iff.mp h
      have := ihv _ _ _ _ h1
      simp only [allAllowed, Bool.and_eq_true] at this
      exact this.2

theorem rok_inj {α : Type} {a b : α} (h : rok a = rok b) : a = b := by
  simpa [rok] using h

theorem rerr_inj {α : Type} {a b : Err} (h : rerr (α := α) a = rerr (α := α) b) :
    a = b := by
  simpa [rerr] using h

/-- The traversal never removes a binding from `self.names` (it only ever
assigns), and it never touches `self.scope`'s variable part. -/
theorem visitMono (fuel : Nat) :
    (∀ s p n p', visit fuel s p n = rok p' → p'.scopeVars = p.scopeVars ∧
      ∀ k, (dlookup p.names k).isSome = true → (dlookup p'.names k).isSome = true) ∧
    (∀ s p n p', genericVisit fuel s p n = rok p' → p'.scopeVars = p.scopeVars ∧
      ∀ k, (dlookup p.names k).isSome = true → (dlookup p'.names k).isSome = true) ∧
    (∀ s p l q, visits fuel s p l = rok q → q.scopeVars = p.scopeVars ∧
      ∀ k, (dlookup p.names k).isSome = true → (dlookup q.names k).isSome = true) ∧
    (∀ s p n r, getIter fuel s p n = rok r → r.2.scopeVars = p.scopeVars ∧
      ∀ k, (dlookup p.names k).isSome = true → (dlookup r.2.names k).isSome = true) := by
  induction fuel with
  | zero =>
    refine ⟨?_, ?_, ?_, ?_⟩ <;> intro _ _ _ _ h <;>
      simp [visit, genericVisit, visits, getIter, rok] at h
  | succ f ih =>
    obtain ⟨ihv, ihg, ihs, ihgi⟩ := ih
    refine ⟨?_, ?_, ?_, ?_⟩
    · intro s p n p' h
      cases n <;> try (simp only [visit] at h; exact ihg _ _ _ _ h)
      case name id =>
        simp only [visit] at h
        split at h
        · exact ihg _ _ _ _ h
        · simp [rerr, rok] at h
      case comprehension t iter ifs =>
        cases t <;> simp only [visit] at h
        case name tid =>
          obtain ⟨li, h1, h2⟩ := rbind_ok_iff.mp h
          obtain ⟨hsc1, hm1⟩ := ihgi _ _ _ _ h1
          obtain ⟨hsc2, hm2⟩ := ihg _ _ _ _ h2
          refine ⟨by rw [hsc2]; exact hsc1, fun k hk => ?_⟩
          exact hm2 k (dlookup_dinsert_isSome _ _ (hm1 k hk))
        all_goals simp [rerr, rok] at h
      case _ v a =>
        rcases v with b | c | id | ⟨b₁, b₂, b₃⟩ | ⟨b₁, b₂⟩ | ⟨b₄, b₅⟩ | ⟨c₁, c₂, c₃⟩ | es | es' | ⟨d₁, d₂⟩ | ⟨e₁, e₂, e₃⟩ | ⟨v', a'⟩ | ⟨f₁, f₂, f₃⟩ | ⟨g₁, g₂⟩ | lc <;> simp only [visit] at h
        · simp [rerr, rok] at h
        · simp [rerr, rok] at h
        · split at h
          · simp [rerr, rok] at h
          · split at h
            · exact ihg _ _ _ _ h
            · simp [rerr, rok] at h
        · simp [rerr, rok] at h
        · simp [rerr, rok] at h
        · simp [rerr, rok] at h
        · simp [rerr, rok] at h
        · simp [rerr, rok] at h
        · simp [rerr, rok] at h
        · simp [rerr, rok] at h
        · simp [rerr, rok] at h
        · exact ihg _ _ _ _ h
        · simp [rerr, rok] at h
        · simp [rerr, rok] at h
        · simp [rerr, rok] at h
    · intro s p n p' h
      simp only [genericVisit] at h
      split at h
      · exact ihs _ _ _ _ h
      · simp [rerr, rok] at h
    · intro s p l q h
      cases l with
      | nil =>
        simp only [visits] at h
        have := rok_inj h
        subst this
        exact ⟨rfl, fun k hk => hk⟩
      | cons c cs =>
        simp only [visits] at h
        obtain ⟨p₁, h1, h2⟩ := rbind_ok_iff.mp h
        obtain ⟨hsc1, hm1⟩ := ihv _ _ _ _ h1
        obtain ⟨hsc2, hm2⟩ := ihs _ _ _ _ h2
        exact ⟨by rw [hsc2]; exact hsc1, fun k hk => hm2 k (hm1 k hk)⟩
    · intro s p n r h
      simp only [getIter] at h
      obtain ⟨p₁, h1, h2⟩ := rbind_ok_iff.mp h
      obtain ⟨v, _, h3⟩ := rbind_ok_iff.mp h2
      obtain ⟨v', _, h4⟩ := rbindx_ok_iff.mp h3
      obtain ⟨hsc1, hm1⟩ := ihv _ _ _ _ h1
      cases v' <;> simp only at h4
      case list l =>
        have := rok_inj h4
        subst this
        exact ⟨hsc1, hm1⟩
      all_goals simp [rerr, rok] at h4

/-- On a comprehension-free tree the traversal is pure: a successful visit
leaves `self.names` untouched, and a failing visit reports one of the
validator's own diagnostics, never an exception from executed code (the only
execution during validation happens inside `visit_comprehension`). -/
theorem visitPure (fuel : Nat) :
    (∀ s p n p', noComp n = true → visit fuel s p n = rok p' → p' = p) ∧
    (∀ s p n p', noComp n = true → genericVisit fuel s p n = rok p' → p' = p) ∧
    (∀ s p l q, noCompL l = true → visits fuel s p l = rok q → q = p) ∧
    (∀ s p n e, noComp n = true → visit fuel s p n = rerr e → e.isRuntime = false) ∧
    (∀ s p n e, noComp n = true → genericVisit fuel s p n = rerr e → e.isRuntime = false) ∧
    (∀ s p l e, noCompL l = true → visits fuel s p l = rerr e → e.isRuntime = false) := by
  induction fuel with
  | zero =>
    refine ⟨?_, ?_, ?_, ?_, ?_, ?_⟩ <;> intro _ _ _ _ _ h <;>
      simp [visit, genericVisit, visits, rok, rerr] at h
  | succ f ih =>
    obtain ⟨ihv, ihg, ihs, ihve, ihge, ihse⟩ := ih
    have hchild : ∀ n : Node, noComp n = true → noCompL n.children = true := by
      intro n hn
      rw [noCompL_eq_all]
      exact noComp_children hn
    refine ⟨?_, ?_, ?_, ?_, ?_, ?_⟩
    · intro s p n p' hn h
      cases n <;> try (simp only [visit] at h; exact ihg _ _ _ _ hn h)
      case name id =>
        simp only [visit] at h
        split at h
        · exact ihg _ _ _ _ hn h
        · simp [rerr, rok] at h
      case comprehension t iter ifs => simp [noComp] at hn
      case _ v a =>
        rcases v with b | c | id | ⟨b₁, b₂, b₃⟩ | ⟨b₁, b₂⟩ | ⟨b₄, b₅⟩ | ⟨c₁, c₂, c₃⟩ | es | es' | ⟨d₁, d₂⟩ | ⟨e₁, e₂, e₃⟩ | ⟨v', a'⟩ | ⟨f₁, f₂, f₃⟩ | ⟨g₁, g₂⟩ | lc <;> simp only [visit] at h
        · simp [rerr, rok] at h
        · simp [rerr, rok] at h
        · split at h
          · simp [rerr, rok] at h
          · split at h
            · exact ihg _ _ _ _ hn h
            · simp [rerr, rok] at h
        · simp [rerr, rok] at h
        · simp [rerr, rok] at h
        · simp [rerr, rok] at h
        · simp [rerr, rok] at h
        · simp [rerr, rok] at h
        · simp [rerr, rok] at h
        · simp [rerr, rok] at h
        · simp [rerr, rok] at h
        · exact ihg _ _ _ _ hn h
        · simp [rerr, rok] at h
        · simp [rerr, rok] at h
        · simp [rerr, rok] at h
    · intro s p n p' hn h
      simp only [genericVisit] at h
      split at h
      · exact ihs _ _ _ _ (hchild n hn) h
      · simp [rerr, rok] at h
    · intro s p l q hn h
      cases l with
      | nil =>
        simp only [visits] at h
        exact (rok_inj h).symm
      | cons c cs =>
        simp only [noCompL, Bool.and_eq_true] at hn
        simp only [visits] at h
        obtain ⟨p₁, h1, h2⟩ := rbind_ok_iff.mp h
        have e1 := ihv _ _ _ _ hn.1 h1
        subst e1
        exact ihs _ _ _ _ hn.2 h2
    · intro s p n e hn h
      cases n <;> try (simp only [visit] at h; exact ihge _ _ _ _ hn h)
      case name id =>
        simp only [visit] at h
        split at h
        · exact ihge _ _ _ _ hn h
        · have := rerr_inj h
          subst this
          rfl
      case comprehension t iter ifs => simp [noComp] at hn
      case _ v a =>
        rcases v with b | c | id | ⟨b₁, b₂, b₃⟩ | ⟨b₁, b₂⟩ | ⟨b₄, b₅⟩ | ⟨c₁, c₂, c₃⟩ | es | es' | ⟨d₁, d₂⟩ | ⟨e₁, e₂, e₃⟩ | ⟨v', a'⟩ | ⟨f₁, f₂, f₃⟩ | ⟨g₁, g₂⟩ | lc <;> simp only [visit] at h
        · exact (rerr_inj h) ▸ rfl
        · exact (rerr_inj h) ▸ rfl
        · split at h
          · exact (rerr_inj h) ▸ rfl
          · split at h
            · exact ihge _ _ _ _ hn h
            · exact (rerr_inj h) ▸ rfl
        · exact (rerr_inj h) ▸ rfl
        · exact (rerr_inj h) ▸ rfl
        · exact (rerr_inj h) ▸ rfl
        · exact (rerr_inj h) ▸ rfl
        · exact (rerr_inj h) ▸ rfl
        · exact (rerr_inj h) ▸ rfl
        · exact (rerr_inj h) ▸ rfl
        · exact (rerr_inj h) ▸ rfl
        · exact ihge _ _ _ _ hn h
        · exact (rerr_inj h) ▸ rfl
        · exact (rerr_inj h) ▸ rfl
        · exact (rerr_inj h) ▸ rfl
    · intro s p n e hn h
      simp only [genericVisit] at h
      split at h
      · exact ihse _ _ _ _ (hchild n hn) h
      · have := rerr_inj h
        subst this
        rfl
    · intro s p l e hn h
      cases l with
      | nil => simp [visits, rerr, rok] at h
      | cons c cs =>
        simp only [noCompL, Bool.and_eq_true] at hn
        simp only [visits] at h
        rcases rbind_err_iff.mp h with h1 | ⟨p₁, h1, h2⟩
        · exact ihve _ _ _ _ hn.1 h1
        · exact ihse _ _ _ _ hn.2 h2

/-- `visit_comprehension` on a well-formed comprehension leaves the loop
variable bound in `self.names` when it returns. -/
theorem comp_binds {fuel : Nat} {s : Store} {p p' : DatabooksParser}
    {tid : String} {iter : Node} {ifs : List Node}
    (h : visit fuel s p (.comprehension (.name tid) iter ifs) = rok p') :
    (dlookup p'.names tid).isSome = true := by
  cases fuel with
  | zero => simp [visit, rok] at h
  | succ f =>
    simp only [visit] at h
    obtain ⟨li, h1, h2⟩ := rbind_ok_iff.mp h
    have hm := ((visitMono f).2.1 _ _ _ _ h2).2
    exact hm tid (by simp [dlookup_dinsert])

theorem dlookup_none_iff (m : Env) (k : String) :
    dlookup m k = Option.none ↔ k ∉ m.map Prod.fst := by
  induction m with
  | nil => simp [dlookup]
  | cons kv rest ih =>
    obtain ⟨k', v⟩ := kv
    simp only [dlookup, List.map_cons, List.mem_cons]
    by_cases hk : k' = k
    · subst hk
      simp
    · rw [if_neg hk]
      constructor
      · intro h hm
        rcases hm with rfl | hm
        · exact hk rfl
        · exact (ih.mp h) hm
      · intro h
        exact ih.mpr fun hm => h (Or.inr hm)

theorem map_fst_override (a b : List (String × Value)) :
    (a.map fun kv => match dlookup b kv.1 with
      | some w => (kv.1, w)
      | Option.none => kv).map Prod.fst = a.map Prod.fst := by
  induction a with
  | nil => rfl
  | cons kv rest ih =>
    cases hd : dlookup b kv.1 <;> simp [hd, ih]

theorem mem_keys_filter (a b : List (String × Value)) (k : String) :
    (k ∈ (b.filter fun kv => (dlookup a kv.1).isNone).map Prod.fst) ↔
      (k ∈ b.map Prod.fst ∧ dlookup a k = Option.none) := by
  induction b with
  | nil => simp
  | cons kv rest ih =>
    obtain ⟨k', v⟩ := kv
    rw [List.filter_cons]
    by_cases hp : (dlookup a k').isNone
    · rw [if_pos (by simpa using hp)]
      simp only [List.map_cons, List.mem_cons, ih]
      by_cases hk : k = k'
      · subst hk
        have hnone : dlookup a k = Option.none := Option.isNone_iff_eq_none.mp hp
        simp [hnone]
      · simp [hk]
    · rw [if_neg (by simpa using hp)]
      rw [ih]
      simp only [List.map_cons, List.mem_cons]
      by_cases hk : k = k'
      · subst hk
        have hnone : ¬dlookup a k = Option.none := fun hh =>
          hp (Option.isNone_iff_eq_none.mpr hh)
        simp [hnone]
      · simp [hk]

theorem mergeTwo_keys (a b : List (String × Value)) (k : String) :
    k ∈ (mergeTwo a b).map Prod.fst ↔
      (k ∈ a.map Prod.fst ∨ k ∈ b.map Prod.fst) := by
  simp only [mergeTwo, List.map_append, List.mem_append, map_fst_override,
    mem_keys_filter, dlookup_none_iff]
  by_cases ha : k ∈ a.map Prod.fst <;> simp [ha]

theorem foldl_mergeTwo_keys (ds : List (List (String × Value)))
    (d : List (String × Value)) (k : String) :
    k ∈ (ds.foldl mergeTwo d).map Prod.fst ↔
      (k ∈ d.map Prod.fst ∨ ∃ fs ∈ ds, k ∈ fs.map Prod.fst) := by
  induction ds generalizing d with
  | nil => simp
  | cons e es ih =>
    simp only [List.foldl_cons, ih, mergeTwo_keys, List.mem_cons]
    constructor
    · rintro ((h | h) | ⟨fs, hfs, h⟩)
      · exact Or.inl h
      · exact Or.inr ⟨e, Or.inl rfl, h⟩
      · exact Or.inr ⟨fs, Or.inr hfs, h⟩
    · rintro (h | ⟨fs, (rfl | hfs), h⟩)
      · exact Or.inl (Or.inl h)
      · exact Or.inl (Or.inr h)
      · exact Or.inr ⟨fs, hfs, h⟩

/-- The declared fields of the synthetic record the Comprehension Binder
builds are exactly the union of the declared fields of the `DatabooksBase`
elements of the iterable. -/
theorem compBind_keys (l : List Value) (k : String) :
    k ∈ allowedAttrs (compBind l) ↔
      ∃ fs ∈ l.filterMap structFields, k ∈ fs.map Prod.fst := by
  unfold compBind
  cases hd : l.filterMap structFields with
  | nil => simp [allowedAttrs]
  | cons d ds =>
    simp only [allowedAttrs, foldl_mergeTwo_keys]
    constructor
    · rintro (h | ⟨fs, hfs, h⟩)
      · exact ⟨d, List.mem_cons_self _ _, h⟩
      · exact ⟨fs, List.mem_cons_of_mem _ hfs, h⟩
    · rintro ⟨fs, hfs, h⟩
      rcases List.mem_cons.mp hfs with rfl | hfs
      · exact Or.inl h
      · exact Or.inr ⟨fs, hfs, h⟩

theorem refFree_list (l : List Value) : refFree (.list l) = refFreeL l := rfl

theorem refFree_structured (fs : List (String × Value)) :
    refFree (.structured fs) = refFreeF fs := rfl

theorem refFreeL_eq_all (l : List Value) : refFreeL l = l.all refFree := by
  induction l with
  | nil => rfl
  | cons v vs ih => simp [refFreeL, ih]

theorem refFreeL_append (a b : List Value) :
    refFreeL (a ++ b) = (refFreeL a && refFreeL b) := by
  simp [refFreeL_eq_all, List.all_append]

/-- Dereferencing a handle-free value never consults the store. -/
theorem forceV_refFree {v : Value} (h : refFree v = true) (s : Store) :
    forceV s v = .ok v := by
  cases v <;> first
    | rfl
    | simp [refFree] at h

theorem dlookup_refFree {e : Env} {k : String} {v : Value}
    (he : refFreeF e = true) (h : dlookup e k = some v) : refFree v = true := by
  induction e with
  | nil => simp [dlookup] at h
  | cons kv rest ih =>
    obtain ⟨k', w⟩ := kv
    simp only [refFreeF, Bool.and_eq_true] at he
    simp only [dlookup] at h
    split at h
    · obtain rfl := Option.some.inj h
      exact he.1
    · exact ih he.2 h

theorem except_map_refFree {x : Except Err Bool} {g : Bool → Value} {v : Value}
    (h : x.map g = .ok v) (hg : ∀ b, refFree (g b) = true) : refFree v = true := by
  cases x with
  | error er => simp [Except.map] at h
  | ok b =>
    simp [Except.map] at h
    exact h ▸ hg b

theorem applyBin_refFree {op : BinK} {a b v : Value}
    (ha : refFree a = true) (hb : refFree b = true)
    (h : applyBin op a b = .ok v) : refFree v = true := by
  cases op <;> simp only [applyBin] at h <;> (repeat' split at h) <;>
    first
      | (obtain rfl := Except.ok.inj h;
         simp_all [refFree, refFreeL_eq_all, List.all_append])
      | simp at h

theorem applyUn_refFree {op : UnK} {a v : Value}
    (h : applyUn op a = .ok v) : refFree v = true := by
  cases op <;> simp only [applyUn] at h
  · exact except_map_refFree h (fun _ => rfl)
  · split at h
    · obtain rfl := Except.ok.inj h; rfl
    · simp at h
  · split at h
    · obtain rfl := Except.ok.inj h; rfl
    · simp at h

theorem applyCall_refFree {fv : Value} {args : List Value} {v : Value}
    (hargs : refFreeL args = true) (h : applyCall fv args = .ok v) :
    refFree v = true := by
  unfold applyCall at h
  (repeat' split at h) <;>
    first
      | (obtain rfl := Except.ok.inj h; simp_all [refFree, refFreeL])
      | exact except_map_refFree h (fun _ => rfl)
      | simp at h

theorem rbind_congr {α β : Type} {x y : R α} {f k : α → R β}
    (hxy : x = y) (hfk : ∀ a, x = rok a → f a = k a) :
    rbind x f = rbind y k := by
  subst hxy
  cases x with
  | none => rfl
  | some e =>
    cases e with
    | error er => rfl
    | ok a => exact hfk a rfl

theorem rbindx_congr {α β : Type} {x : Except Err α} {f k : α → R β}
    (hfk : ∀ a, x = .ok a → f a = k a) : rbindx x f = rbindx x k := by
  cases x with
  | error er => rfl
  | ok a => exact hfk a rfl

/-- Evaluation against an environment of handle-free (deep-copied) values
neither reads the store nor produces values that reach back into it: the
result is identical under any two stores, and any produced value is itself
handle-free.  This is the heart of the copy-on-construct guarantee. -/
theorem evalStore (fuel : Nat) :
    (∀ s₁ s₂ g loc n, refFreeF g = true → refFreeF loc = true →
      evalExpr fuel s₁ g loc n = evalExpr fuel s₂ g loc n ∧
      (∀ v, evalExpr fuel s₁ g loc n = rok v → refFree v = true)) ∧
    (∀ s₁ s₂ g loc l, refFreeF g = true → refFreeF loc = true →
      evalList fuel s₁ g loc l = evalList fuel s₂ g loc l ∧
      (∀ vs, evalList fuel s₁ g loc l = rok vs → refFreeL vs = true)) ∧
    (∀ s₁ s₂ g loc op l, refFreeF g = true → refFreeF loc = true →
      evalBool fuel s₁ g loc op l = evalBool fuel s₂ g loc op l ∧
      (∀ v, evalBool fuel s₁ g loc op l = rok v → refFree v = true)) ∧
    (∀ s₁ s₂ g loc v ops cs, refFreeF g = true → refFreeF loc = true →
      refFree v = true →
      evalCmp fuel s₁ g loc v ops cs = evalCmp fuel s₂ g loc v ops cs ∧
      (∀ w, evalCmp fuel s₁ g loc v ops cs = rok w → refFree w = true)) ∧
    (∀ s₁ s₂ g loc gens elt, refFreeF g = true → refFreeF loc = true →
      evalComp fuel s₁ g loc gens elt = evalComp fuel s₂ g loc gens elt ∧
      (∀ vs, evalComp fuel s₁ g loc gens elt = rok vs → refFreeL vs = true)) ∧
    (∀ s₁ s₂ g loc t ifs rest elt l, refFreeF g = true → refFreeF loc = true →
      refFreeL l = true →
      evalElems fuel s₁ g loc t ifs rest elt l
        = evalElems fuel s₂ g loc t ifs rest elt l ∧
      (∀ vs, evalElems fuel s₁ g loc t ifs rest elt l = rok vs →
        refFreeL vs = true)) ∧
    (∀ s₁ s₂ g loc l, refFreeF g = true → refFreeF loc = true →
      evalIfs fuel s₁ g loc l = evalIfs fuel s₂ g loc l) := by
  induction fuel with
  | zero =>
    refine ⟨?_, ?_, ?_, ?_, ?_, ?_, ?_⟩ <;> intros <;>
      first
        | (refine ⟨rfl, ?_⟩; intro _ h;
           simp [evalExpr, evalList, evalBool, evalCmp, evalComp, evalElems,
             rok] at h)
        | rfl
  | succ f ih =>
    obtain ⟨ihe, ihl, ihb, ihc, ihcm, ihel, ihif⟩ := ih
    refine ⟨?_, ?_, ?_, ?_, ?_, ?_, ?_⟩
    · intro s₁ s₂ g loc n hg hl
      cases n
      case expression b =>
        simp only [evalExpr]
        exact ihe s₁ s₂ g loc b hg hl
      case constant c =>
        simp only [evalExpr]
        refine ⟨by trivial, fun v hv => ?_⟩
        obtain rfl := rok_inj hv
        cases c <;> rfl
      case name id =>
        cases hd : dlookup loc id with
        | some v =>
          have hrv := dlookup_refFree hl hd
          simp only [evalExpr, hd]
          rw [forceV_refFree hrv s₁, forceV_refFree hrv s₂]
          exact ⟨by trivial, fun w hw => by
            simp only [rbindx] at hw
            obtain rfl := rok_inj hw
            exact hrv⟩
        | none =>
          cases hg2 : dlookup g id with
          | some v =>
            have hrv := dlookup_refFree hg hg2
            simp only [evalExpr, hd, hg2]
            rw [forceV_refFree hrv s₁, forceV_refFree hrv s₂]
            exact ⟨by trivial, fun w hw => by
              simp only [rbindx] at hw
              obtain rfl := rok_inj hw
              exact hrv⟩
          | none =>
            simp only [evalExpr, hd, hg2]
            refine ⟨by trivial, fun w hw => ?_⟩
            split at hw
            · obtain rfl := rok_inj hw
              rfl
            · simp [rerr, rok] at hw
      case binop l op r =>
        simp only [evalExpr]
        obtain ⟨hel, hrl⟩ := ihe s₁ s₂ g loc l hg hl
        obtain ⟨her, hrr⟩ := ihe s₁ s₂ g loc r hg hl
        constructor
        · exact rbind_congr hel fun v1 h1 => rbind_congr her fun v2 h2 => rfl
        · intro v hv
          obtain ⟨v1, h1, hv⟩ := rbind_ok_iff.mp hv
          obtain ⟨v2, h2, hv⟩ := rbind_ok_iff.mp hv
          obtain ⟨v3, h3, hv⟩ := rbindx_ok_iff.mp hv
          obtain rfl := rok_inj hv
          exact applyBin_refFree (hrl _ h1) (hrr _ h2) h3
      case boolop op vs =>
        simp only [evalExpr]
        exact ihb s₁ s₂ g loc op vs hg hl
      case unaryop op e =>
        simp only [evalExpr]
        obtain ⟨hee, hre⟩ := ihe s₁ s₂ g loc e hg hl
        constructor
        · exact rbind_congr hee fun v h1 => rfl
        · intro v hv
          obtain ⟨v1, h1, hv⟩ := rbind_ok_iff.mp hv
          obtain ⟨v2, h2, hv⟩ := rbindx_ok_iff.mp hv
          obtain rfl := rok_inj hv
          exact applyUn_refFree h2
      case compare l ops cs =>
        simp only [evalExpr]
        obtain ⟨hel, hrl⟩ := ihe s₁ s₂ g loc l hg hl
        constructor
        · exact rbind_congr hel fun v h1 =>
            (ihc s₁ s₂ g loc v ops cs hg hl (hrl v h1)).1
        · intro w hw
          obtain ⟨v, h1, hw⟩ := rbind_ok_iff.mp hw
          exact (ihc s₁ s₂ g loc v ops cs hg hl (hrl v h1)).2 w hw
      case listlit es =>
        simp only [evalExpr]
        obtain ⟨hes, hrs⟩ := ihl s₁ s₂ g loc es hg hl
        constructor
        · exact rbind_congr hes fun vs h1 => rfl
        · intro v hv
          obtain ⟨vs, h1, hv⟩ := rbind_ok_iff.mp hv
          obtain rfl := rok_inj hv
          exact hrs vs h1
      case tuplelit es =>
        simp only [evalExpr]
        obtain ⟨hes, hrs⟩ := ihl s₁ s₂ g loc es hg hl
        constructor
        · exact rbind_congr hes fun vs h1 => rfl
        · intro v hv
          obtain ⟨vs, h1, hv⟩ := rbind_ok_iff.mp hv
          obtain rfl := rok_inj hv
          exact hrs vs h1
      case listcomp elt gens =>
        simp only [evalExpr]
        obtain ⟨hes, hrs⟩ := ihcm s₁ s₂ g loc gens elt hg hl
        constructor
        · exact rbind_congr hes fun vs h1 => rfl
        · intro v hv
          obtain ⟨vs, h1, hv⟩ := rbind_ok_iff.mp hv
          obtain rfl := rok_inj hv
          exact hrs vs h1
      case comprehension t i ifs =>
        simp only [evalExpr]
        exact ⟨by trivial, fun v hv => by simp [rerr, rok] at hv⟩
      case _ b a =>
        simp only [evalExpr]
        obtain ⟨heb, hrb⟩ := ihe s₁ s₂ g loc b hg hl
        constructor
        · refine rbind_congr heb fun bv h1 => ?_
          have hb := hrb bv h1
          rw [forceV_refFree hb s₁, forceV_refFree hb s₂]
          simp only [rbindx]
          cases bv <;> try rfl
          case structured fs =>
            cases hfv : dlookup fs a with
            | some fv =>
              have hrfv := dlookup_refFree (by simpa [refFree_structured] using hb) hfv
              simp only [hfv]
              rw [forceV_refFree hrfv s₁, forceV_refFree hrfv s₂]
            | none => simp only [hfv]
        · intro v hv
          obtain ⟨bv, h1, hv⟩ := rbind_ok_iff.mp hv
          have hb := hrb bv h1
          rw [forceV_refFree hb s₁] at hv
          simp only [rbindx] at hv
          cases bv <;> try simp [rerr, rok] at hv
          case structured fs =>
            cases hfv : dlookup fs a with
            | some fv =>
              simp only [hfv] at hv
              have hrfv := dlookup_refFree (by simpa [refFree_structured] using hb) hfv
              rw [forceV_refFree hrfv s₁] at hv
              simp only [rbindx] at hv
              obtain rfl := rok_inj hv
              exact hrfv
            | none => simp only [hfv] at hv; simp [rerr, rok] at hv
      case call fn args kws =>
        cases kws with
        | cons kw kws' =>
          simp only [evalExpr, List.isEmpty_cons, Bool.false_eq_true, if_false]
          exact ⟨by trivial, fun v hv => by simp [rerr, rok] at hv⟩
        | nil =>
          simp only [evalExpr, List.isEmpty_nil, if_true]
          obtain ⟨hef, hrf⟩ := ihe s₁ s₂ g loc fn hg hl
          obtain ⟨hea, hra⟩ := ihl s₁ s₂ g loc args hg hl
          constructor
          · exact rbind_congr hef fun fv h1 =>
              rbind_congr hea fun avs h2 => rfl
          · intro v hv
            obtain ⟨fv, h1, hv⟩ := rbind_ok_iff.mp hv
            obtain ⟨avs, h2, hv⟩ := rbind_ok_iff.mp hv
            obtain ⟨w, h3, hv⟩ := rbindx_ok_iff.mp hv
            obtain rfl := rok_inj hv
            exact applyCall_refFree (hra _ h2) h3
      case keyword a b =>
        simp only [evalExpr]
        exact ⟨by trivial, fun v hv => by simp [rerr, rok] at hv⟩
      case leaf c =>
        simp only [evalExpr]
        exact ⟨by trivial, fun v hv => by simp [rerr, rok] at hv⟩
    · intro s₁ s₂ g loc l hg hl
      cases l with
      | nil =>
        simp only [evalList]
        exact ⟨by trivial, fun vs hv => by obtain rfl := rok_inj hv; rfl⟩
      | cons e es =>
        simp only [evalList]
        obtain ⟨hee, hre⟩ := ihe s₁ s₂ g loc e hg hl
        obtain ⟨hes, hrs⟩ := ihl s₁ s₂ g loc es hg hl
        constructor
        · exact rbind_congr hee fun v h1 => rbind_congr hes fun vs h2 => rfl
        · intro vs hv
          obtain ⟨v, h1, hv⟩ := rbind_ok_iff.mp hv
          obtain ⟨ws, h2, hv⟩ := rbind_ok_iff.mp hv
          obtain rfl := rok_inj hv
          simp [refFreeL, hre v h1, hrs ws h2]
    · intro s₁ s₂ g loc op l hg hl
      cases l with
      | nil =>
        simp only [evalBool]
        exact ⟨by trivial, fun v hv => by simp [rerr, rok] at hv⟩
      | cons e es =>
        cases es with
        | nil =>
          simp only [evalBool]
          exact ihe s₁ s₂ g loc e hg hl
        | cons e2 es' =>
          simp only [evalBool]
          obtain ⟨hee, hre⟩ := ihe s₁ s₂ g loc e hg hl
          obtain ⟨heb, hrb⟩ := ihb s₁ s₂ g loc op (e2 :: es') hg hl
          constructor
          · refine rbind_congr hee fun v h1 => rbindx_congr fun t ht => ?_
            cases op <;> cases t <;> first | rfl | exact heb
          · intro v hv
            obtain ⟨w, h1, hv⟩ := rbind_ok_iff.mp hv
            obtain ⟨t, h2, hv⟩ := rbindx_ok_iff.mp hv
            cases op <;> cases t <;>
              first
                | (obtain rfl := rok_inj hv; exact hre w h1)
                | exact hrb v hv
    · intro s₁ s₂ g loc v ops cs hg hl hv
      cases ops with
      | nil =>
        cases cs with
        | nil =>
          simp only [evalCmp]
          exact ⟨by trivial, fun w hw => by obtain rfl := rok_inj hw; rfl⟩
        | cons c cs' =>
          simp only [evalCmp]
          exact ⟨by trivial, fun w hw => by simp [rerr, rok] at hw⟩
      | cons op ops' =>
        cases cs with
        | nil =>
          simp only [evalCmp]
          exact ⟨by trivial, fun w hw => by simp [rerr, rok] at hw⟩
        | cons c cs' =>
          simp only [evalCmp]
          obtain ⟨hec, hrc⟩ := ihe s₁ s₂ g loc c hg hl
          constructor
          · refine rbind_congr hec fun w h1 => rbindx_congr fun b hb => ?_
            cases b
            · rfl
            · simp only [if_true]
              exact (ihc s₁ s₂ g loc w ops' cs' hg hl (hrc w h1)).1
          · intro w hw
            obtain ⟨w1, h1, hw⟩ := rbind_ok_iff.mp hw
            obtain ⟨b, h2, hw⟩ := rbindx_ok_iff.mp hw
            cases b
            · simp only [Bool.false_eq_true, if_false] at hw
              obtain rfl := rok_inj hw
              rfl
            · simp only [if_true] at hw
              exact (ihc s₁ s₂ g loc w1 ops' cs' hg hl (hrc w1 h1)).2 w hw
    · intro s₁ s₂ g loc gens elt hg hl
      cases gens with
      | nil =>
        simp only [evalComp]
        obtain ⟨hee, hre⟩ := ihe s₁ s₂ g loc elt hg hl
        constructor
        · exact rbind_congr hee fun v h1 => rfl
        · intro vs hv
          obtain ⟨v, h1, hv⟩ := rbind_ok_iff.mp hv
          obtain rfl := rok_inj hv
          simp [refFreeL, hre v h1]
      | cons gen rest =>
        cases gen with
        | comprehension t iter ifs =>
          cases t with
          | name tid =>
            simp only [evalComp]
            obtain ⟨hei, hri⟩ := ihe s₁ s₂ g loc iter hg hl
            constructor
            · refine rbind_congr hei fun itv h1 => ?_
              have hit := hri itv h1
              rw [forceV_refFree hit s₁, forceV_refFree hit s₂]
              simp only [rbindx]
              cases itv <;> try rfl
              case list l =>
                exact (ihel s₁ s₂ g loc tid ifs rest elt l hg hl
                  (by simpa [refFree_list] using hit)).1
            · intro vs hv
              obtain ⟨itv, h1, hv⟩ := rbind_ok_iff.mp hv
              have hit := hri itv h1
              rw [forceV_refFree hit s₁] at hv
              simp only [rbindx] at hv
              cases itv <;> try simp [rerr, rok] at hv
              case list l =>
                exact (ihel s₁ s₂ g loc tid ifs rest elt l hg hl
                  (by simpa [refFree_list] using hit)).2 vs hv
          | _ =>
            simp only [evalComp]
            exact ⟨by trivial, fun vs hv => by simp [rerr, rok] at hv⟩
        | _ =>
          simp only [evalComp]
          exact ⟨by trivial, fun vs hv => by simp [rerr, rok] at hv⟩
    · intro s₁ s₂ g loc t ifs rest elt l hg hl hrl
      cases l with
      | nil =>
        simp only [evalElems]
        exact ⟨by trivial, fun vs hv => by obtain rfl := rok_inj hv; rfl⟩
      | cons x xs =>
        simp only [refFreeL, Bool.and_eq_true] at hrl
        have hloc' : refFreeF (dinsert t x loc) = true := by
          simp [dinsert, refFreeF, hrl.1, hl]
        simp only [evalElems]
        have hif := ihif s₁ s₂ g (dinsert t x loc) ifs hg hloc'
        obtain ⟨hcm, hrcm⟩ := ihcm s₁ s₂ g (dinsert t x loc) rest elt hg hloc'
        obtain ⟨hxs, hrxs⟩ := ihel s₁ s₂ g loc t ifs rest elt xs hg hl hrl.2
        constructor
        · refine rbind_congr hif fun keep hk => ?_
          refine rbind_congr ?_ fun vs1 h1 => rbind_congr hxs fun vs2 h2 => rfl
          cases keep
          · rfl
          · simpa using hcm
        · intro vs hv
          obtain ⟨keep, hk, hv⟩ := rbind_ok_iff.mp hv
          obtain ⟨vs1, h1, hv⟩ := rbind_ok_iff.mp hv
          obtain ⟨vs2, h2, hv⟩ := rbind_ok_iff.mp hv
          obtain rfl := rok_inj hv
          rw [refFreeL_append]
          have hv1 : refFreeL vs1 = true := by
            cases keep
            · simp only [Bool.false_eq_true, if_false] at h1
              obtain rfl := rok_inj h1
              rfl
            · simp only [if_true] at h1
              exact hrcm vs1 h1
          simp [hv1, hrxs vs2 h2]
    · intro s₁ s₂ g loc l hg hl
      cases l with
      | nil => rfl
      | cons c cs =>
        simp only [evalIfs]
        obtain ⟨hec, hrc⟩ := ihe s₁ s₂ g loc c hg hl
        refine rbind_congr hec fun v h1 => rbindx_congr fun b hb => ?_
        cases b
        · rfl
        · simp only [if_true]
          exact ihif s₁ s₂ g loc cs hg hl

theorem refFreeF_eq_all (e : List (String × Value)) :
    refFreeF e = e.all (fun kv => refFree kv.2) := by
  induction e with
  | nil => rfl
  | cons kv rest ih => simp [refFreeF, ih]

theorem mergeTwo_refFree {a b : List (String × Value)}
    (ha : refFreeF a = true) (hb : refFreeF b = true) :
    refFreeF (mergeTwo a b) = true := by
  have ha' : a.all (fun kv => refFree kv.2) = true := (refFreeF_eq_all a) ▸ ha
  have hb' : b.all (fun kv => refFree kv.2) = true := (refFreeF_eq_all b) ▸ hb
  rw [refFreeF_eq_all, List.all_eq_true]
  intro kv hkv
  rcases List.mem_append.mp hkv with h | h
  · obtain ⟨kv', hkv', heq⟩ := List.mem_map.mp h
    rw [← heq]
    cases hd : dlookup b kv'.1 with
    | some w =>
      simp only [hd]
      exact dlookup_refFree hb hd
    | none =>
      simp only [hd]
      exact List.all_eq_true.mp ha' kv' hkv'
  · exact List.all_eq_true.mp hb' _ (List.mem_of_mem_filter h)

theorem foldl_mergeTwo_refFree (ds : List (List (String × Value)))
    (d : List (String × Value)) (hd : refFreeF d = true)
    (hds : ∀ fs ∈ ds, refFreeF fs = true) :
    refFreeF (ds.foldl mergeTwo d) = true := by
  induction ds generalizing d with
  | nil => exact hd
  | cons e es ih =>
    simp only [List.foldl_cons]
    exact ih _ (mergeTwo_refFree hd (hds e (List.mem_cons_self _ _)))
      fun fs hfs => hds fs (List.mem_cons_of_mem _ hfs)

theorem structFields_refFree {l : List Value} (h : refFreeL l = true) :
    ∀ fs ∈ l.filterMap structFields, refFreeF fs = true := by
  intro fs hfs
  obtain ⟨v, hv, hsv⟩ := List.mem_filterMap.mp hfs
  have hrv : refFree v = true := by
    rw [refFreeL_eq_all] at h
    exact List.all_eq_true.mp h v hv
  cases v <;> simp [structFields] at hsv
  case structured fs' =>
    subst hsv
    exact (refFree_structured _) ▸ hrv

/-- The value the Comprehension Binder stores for the loop variable is
handle-free whenever the iterable's elements are. -/
theorem compBind_refFree {l : List Value} (h : refFreeL l = true) :
    refFree (compBind l) = true := by
  unfold compBind
  cases hd : l.filterMap structFields with
  | nil => rfl
  | cons d ds =>
    rw [refFree_structured]
    have hall := structFields_refFree h
    rw [hd] at hall
    exact foldl_mergeTwo_refFree ds d (hall d (List.mem_cons_self _ _))
      fun fs hfs => hall fs (List.mem_cons_of_mem _ hfs)

/-- Validation of an engine whose name table and scope hold only handle-free
(deep-copied) values is store-independent, and preserves that state shape:
the eager evaluation inside `_get_iter` runs against the frozen scope only
and produces handle-free elements. -/
theorem visitStore (fuel : Nat) :
    (∀ s₁ s₂ p n, refFreeF p.names = true → refFreeF p.scopeVars = true →
      visit fuel s₁ p n = visit fuel s₂ p n ∧
      (∀ p', visit fuel s₁ p n = rok p' →
        refFreeF p'.names = true ∧ p'.scopeVars = p.scopeVars)) ∧
    (∀ s₁ s₂ p n, refFreeF p.names = true → refFreeF p.scopeVars = true →
      genericVisit fuel s₁ p n = genericVisit fuel s₂ p n ∧
      (∀ p', genericVisit fuel s₁ p n = rok p' →
        refFreeF p'.names = true ∧ p'.scopeVars = p.scopeVars)) ∧
    (∀ s₁ s₂ p l, refFreeF p.names = true → refFreeF p.scopeVars = true →
      visits fuel s₁ p l = visits fuel s₂ p l ∧
      (∀ q, visits fuel s₁ p l = rok q →
        refFreeF q.names = true ∧ q.scopeVars = p.scopeVars)) ∧
    (∀ s₁ s₂ p n, refFreeF p.names = true → refFreeF p.scopeVars = true →
      getIter fuel s₁ p n = getIter fuel s₂ p n ∧
      (∀ r, getIter fuel s₁ p n = rok r → refFreeL r.1 = true ∧
        refFreeF r.2.names = true ∧ r.2.scopeVars = p.scopeVars)) := by
  induction fuel with
  | zero =>
    refine ⟨?_, ?_, ?_, ?_⟩ <;> intros <;>
      refine ⟨rfl, ?_⟩ <;> intro _ h <;>
      simp [visit, genericVisit, visits, getIter, rok] at h
  | succ f ih =>
    obtain ⟨ihv, ihg, ihs, ihgi⟩ := ih
    refine ⟨?_, ?_, ?_, ?_⟩
    · intro s₁ s₂ p n hn hs
      cases n <;>
        try (refine ⟨?_, ?_⟩
             · simp only [visit]
               exact (ihg s₁ s₂ p _ hn hs).1
             · intro p' h
               simp only [visit] at h
               exact (ihg s₁ s₂ p _ hn hs).2 p' h)
      case name id =>
        constructor
        · simp only [visit]
          split
          · exact (ihg s₁ s₂ p _ hn hs).1
          · rfl
        · intro p' h
          simp only [visit] at h
          split at h
          · exact (ihg s₁ s₂ p _ hn hs).2 p' h
          · simp [rerr, rok] at h
      case comprehension t iter ifs =>
        cases t
        case name tid =>
          have hgi := ihgi s₁ s₂ p iter hn hs
          constructor
          · simp only [visit]
            refine rbind_congr hgi.1 fun li h1 => ?_
            obtain ⟨hl1, hl2, hl3⟩ := hgi.2 li h1
            have hn' : refFreeF (dinsert tid (compBind li.1) li.2.names) = true := by
              simp [dinsert, refFreeF, compBind_refFree hl1, hl2]
            have hs' : refFreeF li.2.scopeVars = true := by rw [hl3]; exact hs
            exact (ihg s₁ s₂ ⟨dinsert tid (compBind li.1) li.2.names, li.2.scopeVars⟩ _ hn' hs').1
          · intro p' h
            simp only [visit] at h
            obtain ⟨li, h1, h2⟩ := rbind_ok_iff.mp h
            obtain ⟨hl1, hl2, hl3⟩ := hgi.2 li h1
            have hn' : refFreeF (dinsert tid (compBind li.1) li.2.names) = true := by
              simp [dinsert, refFreeF, compBind_refFree hl1, hl2]
            have hs' : refFreeF li.2.scopeVars = true := by rw [hl3]; exact hs
            obtain ⟨hres1, hres2⟩ := (ihg s₁ s₂ ⟨dinsert tid (compBind li.1) li.2.names, li.2.scopeVars⟩ _ hn' hs').2 p' h2
            exact ⟨hres1, by rw [hres2]; exact hl3⟩
        all_goals
          refine ⟨by simp only [visit], ?_⟩
        all_goals
          intro p' h
        all_goals
          simp only [visit] at h
        all_goals
          simp [rerr, rok] at h
      case _ v a =>
        rcases v with b | c | id | ⟨b₁, b₂, b₃⟩ | ⟨b₁, b₂⟩ | ⟨b₄, b₅⟩ | ⟨c₁, c₂, c₃⟩ | es | es' | ⟨d₁, d₂⟩ | ⟨e₁, e₂, e₃⟩ | ⟨v', a'⟩ | ⟨f₁, f₂, f₃⟩ | ⟨g₁, g₂⟩ | lc
        · exact ⟨by simp only [visit], fun p' h => by simp only [visit] at h; simp [rerr, rok] at h⟩
        · exact ⟨by simp only [visit], fun p' h => by simp only [visit] at h; simp [rerr, rok] at h⟩
        · constructor
          · simp only [visit]
            split
            · rfl
            · split
              · exact (ihg s₁ s₂ p _ hn hs).1
              · rfl
          · intro p' h
            simp only [visit] at h
            split at h
            · simp [rerr, rok] at h
            · split at h
              · exact (ihg s₁ s₂ p _ hn hs).2 p' h
              · simp [rerr, rok] at h
        · exact ⟨by simp only [visit], fun p' h => by simp only [visit] at h; simp [rerr, rok] at h⟩
        · exact ⟨by simp only [visit], fun p' h => by simp only [visit] at h; simp [rerr, rok] at h⟩
        · exact ⟨by simp only [visit], fun p' h => by simp only [visit] at h; simp [rerr, rok] at h⟩
        · exact ⟨by simp only [visit], fun p' h => by simp only [visit] at h; simp [rerr, rok] at h⟩
        · exact ⟨by simp only [visit], fun p' h => by simp only [visit] at h; simp [rerr, rok] at h⟩
        · exact ⟨by simp only [visit], fun p' h => by simp only [visit] at h; simp [rerr, rok] at h⟩
        · exact ⟨by simp only [visit], fun p' h => by simp only [visit] at h; simp [rerr, rok] at h⟩
        · exact ⟨by simp only [visit], fun p' h => by simp only [visit] at h; simp [rerr, rok] at h⟩
        · constructor
          · simp only [visit]
            exact (ihg s₁ s₂ p _ hn hs).1
          · intro p' h
            simp only [visit] at h
            exact (ihg s₁ s₂ p _ hn hs).2 p' h
        · exact ⟨by simp only [visit], fun p' h => by simp only [visit] at h; simp [rerr, rok] at h⟩
        · exact ⟨by simp only [visit], fun p' h => by simp only [visit] at h; simp [rerr, rok] at h⟩
        · exact ⟨by simp only [visit], fun p' h => by simp only [visit] at h; simp [rerr, rok] at h⟩
    · intro s₁ s₂ p n hn hs
      constructor
      · simp only [genericVisit]
        split
        · exact (ihs s₁ s₂ p _ hn hs).1
        · rfl
      · intro p' h
        simp only [genericVisit] at h
        split at h
        · exact (ihs s₁ s₂ p _ hn hs).2 p' h
        · simp [rerr, rok] at h
    · intro s₁ s₂ p l hn hs
      cases l with
      | nil =>
        refine ⟨rfl, fun q h => ?_⟩
        simp only [visits] at h
        obtain rfl := rok_inj h
        exact ⟨hn, rfl⟩
      | cons c cs =>
        have hv := ihv s₁ s₂ p c hn hs
        constructor
        · simp only [visits]
          refine rbind_congr hv.1 fun p₁ h1 => ?_
          obtain ⟨h2, h3⟩ := hv.2 p₁ h1
          exact (ihs s₁ s₂ p₁ cs h2 (h3 ▸ hs)).1
        · intro q h
          simp only [visits] at h
          obtain ⟨p₁, h1, h2⟩ := rbind_ok_iff.mp h
          obtain ⟨h3, h4⟩ := hv.2 p₁ h1
          obtain ⟨h5, h6⟩ := (ihs s₁ s₂ p₁ cs h3 (h4 ▸ hs)).2 q h2
          exact ⟨h5, by rw [h6]; exact h4⟩
    · intro s₁ s₂ p n hn hs
      have hv := ihv s₁ s₂ p (.expression n) hn hs
      constructor
      · simp only [getIter]
        refine rbind_congr hv.1 fun p' h1 => ?_
        obtain ⟨h2, h3⟩ := hv.2 p' h1
        have hsc : refFreeF p'.scopeVars = true := h3 ▸ hs
        have he := (evalStore f).1 s₁ s₂ p'.scopeVars [] (.expression n) hsc rfl
        refine rbind_congr he.1 fun v hev => ?_
        have hrv := he.2 v hev
        rw [forceV_refFree hrv s₁, forceV_refFree hrv s₂]
      · intro r h
        simp only [getIter] at h
        obtain ⟨p', h1, h⟩ := rbind_ok_iff.mp h
        obtain ⟨h2, h3⟩ := hv.2 p' h1
        have hsc : refFreeF p'.scopeVars = true := h3 ▸ hs
        have he := (evalStore f).1 s₁ s₂ p'.scopeVars [] (.expression n) hsc rfl
        obtain ⟨v, hev, h⟩ := rbind_ok_iff.mp h
        have hrv := he.2 v hev
        rw [forceV_refFree hrv s₁] at h
        simp only [rbindx] at h
        cases v <;> try simp [rerr, rok] at h
        case list l =>
          subst h
          exact ⟨(refFree_list _) ▸ hrv, h2, h3⟩

/-- `copy.deepcopy` output contains no handles: every `ref` has been
replaced by a copy of the referenced contents. -/
theorem resolveRefFree (fuel : Nat) :
    (∀ s v w, resolve fuel s v = some w → refFree w = true) ∧
    (∀ s l ws, resolveL fuel s l = some ws → refFreeL ws = true) ∧
    (∀ s l ws, resolveF fuel s l = some ws → refFreeF ws = true) := by
  induction fuel with
  | zero =>
    refine ⟨?_, ?_, ?_⟩ <;> intro _ _ _ h <;>
      simp [resolve, resolveL, resolveF] at h
  | succ f ih =>
    obtain ⟨ih1, ih2, ih3⟩ := ih
    refine ⟨?_, ?_, ?_⟩
    · intro s v w h
      cases v <;> simp only [resolve] at h
      case ref a =>
        cases hs : s.get? a with
        | none => rw [hs] at h; simp at h
        | some w' =>
          rw [hs] at h
          exact ih1 _ _ _ h
      case list es =>
        cases hl : resolveL f s es with
        | none => rw [hl] at h; simp at h
        | some ws' =>
          rw [hl] at h
          simp only [Option.map] at h
          obtain rfl := Option.some.inj h
          exact (refFree_list _) ▸ ih2 _ _ _ hl
      case structured fs =>
        cases hl : resolveF f s fs with
        | none => rw [hl] at h; simp at h
        | some ws' =>
          rw [hl] at h
          simp only [Option.map] at h
          obtain rfl := Option.some.inj h
          exact (refFree_structured _) ▸ ih3 _ _ _ hl
      all_goals (obtain rfl := Option.some.inj h; rfl)
    · intro s l ws h
      cases l with
      | nil =>
        simp only [resolveL] at h
        obtain rfl := Option.some.inj h
        rfl
      | cons v vs =>
        simp only [resolveL] at h
        cases h1 : resolve f s v <;> rw [h1] at h <;>
          cases h2 : resolveL f s vs <;> rw [h2] at h <;> simp at h
        subst h
        simp [refFreeL, ih1 _ _ _ h1, ih2 _ _ _ h2]
    · intro s l ws h
      cases l with
      | nil =>
        simp only [resolveF] at h
        obtain rfl := Option.some.inj h
        rfl
      | cons kv fs =>
        obtain ⟨k, v⟩ := kv
        simp only [resolveF] at h
        cases h1 : resolve f s v <;> rw [h1] at h <;>
          cases h2 : resolveF f s fs <;> rw [h2] at h <;> simp at h
        simp [← h, refFreeF, ih1 _ _ _ h1, ih3 _ _ _ h2]

theorem resolveEnv_refFree {fuel : Nat} {s : Store} :
    ∀ {vars e : Env}, resolveEnv fuel s vars = some e → refFreeF e = true := by
  intro vars
  induction vars with
  | nil =>
    intro e h
    simp only [resolveEnv] at h
    obtain rfl := Option.some.inj h
    rfl
  | cons kv rest ih =>
    intro e h
    obtain ⟨k, v⟩ := kv
    simp only [resolveEnv] at h
    cases h1 : resolve fuel s v <;> rw [h1] at h <;>
      cases h2 : resolveEnv fuel s rest <;> rw [h2] at h <;> simp at h
    simp [← h, refFreeF, (resolveRefFree fuel).1 _ _ _ h1, ih h2]

/-- A successfully constructed engine state holds only deep copies, and its
frozen scope is that same copied table. -/
theorem init_refFree {fuel : Nat} {s : Store} {vars : Env} {p : DatabooksParser}
    (h : DatabooksParser.init fuel s vars = some p) :
    refFreeF p.names = true ∧ p.scopeVars = p.names := by
  unfold DatabooksParser.init at h
  cases hr : resolveEnv fuel s vars with
  | none => rw [hr] at h; simp at h
  | some nm =>
    rw [hr] at h
    obtain rfl := Option.some.inj h
    exact ⟨resolveEnv_refFree hr, rfl⟩

/-! ### Shared unfolding helpers -/

/-- Visiting the `Load` expression context (a leaf node) always succeeds and
leaves the parser untouched. -/
theorem visit_leaf_load (f : Nat) (s : Store) (p : DatabooksParser) :
    visit (f + 3) s p (.leaf "Load") = rok p := rfl

/-- Visiting a name that is bound in the parser's table succeeds and leaves
the parser untouched. -/
theorem visit_name_bound {p : DatabooksParser} {id : String} (f : Nat) (s : Store)
    (h : (dlookup p.names id).isSome = true) :
    visit (f + 6) s p (.name id) = rok p := by
  have hc : ((dlookup p.names id).isSome || builtinNames.contains id) = true := by
    simp [h]
  simp only [visit, hc, if_true]
  rfl

/-! ### The claims -/

/-- Claim C1, corrected.  The allow-list check `isinstance(node,
_ALLOWED_NODES)` does not reject every node whose kind is absent from
`_ALLOWED_NODES` (see the counterexample: a `Call` passes it through the
abstract base `ast.expr`).  What `generic_visit` does guarantee is: an
expression containing a node that FAILS that check — at any depth — is never
evaluated to a value. -/
theorem c1_failing_node_never_evaluated {n : Node} (h : allAllowed n = false) :
    ∀ (fuel : Nat) (s : Store) (p : DatabooksParser) (v : Value)
      (q : DatabooksParser), safeEvalAst fuel s p n ≠ rok (v, q) := by
  intro fuel s p v q hc
  unfold safeEvalAst at hc
  obtain ⟨p', h1, _⟩ := rbind_ok_iff.mp hc
  have ha := (visitAll fuel).1 s p n p' h1
  rw [h] at ha
  exact Bool.false_ne_true ha

/-- Claim C1 witness: a call carrying a keyword argument (`ast.keyword` fails
the isinstance check) contains a failing node, so it is never evaluated. -/
theorem c1_fail_witness :
    allAllowed (Node.call (.name "len") [] [.keyword "x" (.constant (.int 1))])
        = false ∧
      safeEvalAst 30 [] ⟨[], []⟩
          (.expression (.call (.name "len") [] [.keyword "x" (.constant (.int 1))]))
        ≠ rok (.int 0, ⟨[], []⟩) :=
  ⟨by decide,
   c1_failing_node_never_evaluated (n := .expression (.call (.name "len") []
      [.keyword "x" (.constant (.int 1))])) (by decide) 30 [] ⟨[], []⟩
      (.int 0) ⟨[], []⟩⟩

/-- Claim C1 counterexample: `len(xs)` contains a `Call` node, whose kind is
outside `_ALLOWED_NODES`, yet validation does not reject the expression with
`DisallowedSyntax` — it is executed, producing the value `3`. -/
theorem c1_call_counterexample :
    kindListed (Node.call (.name "len") [.name "xs"] []) = false ∧
      safeEvalAst 30 []
          ⟨[("xs", .list [.int 1, .int 2, .int 3])],
           [("xs", .list [.int 1, .int 2, .int 3])]⟩
          (.expression (.call (.name "len") [.name "xs"] []))
        = rok (.int 3,
            ⟨[("xs", .list [.int 1, .int 2, .int 3])],
             [("xs", .list [.int 1, .int 2, .int 3])]⟩) := by
  decide

/-- Claim C2, corrected.  Call syntax is NOT rejected: although no call
construct appears in `_ALLOWED_NODES`, `ast.Call` is admitted through the
abstract base `ast.expr`, so a call to a builtin registered in the scope is
validated and then executed.  Shown in full generality for `len` applied to
any bound list variable: the call evaluates to the list's length. -/
theorem c2_len_call_is_executed : ∀ (f : Nat) (s : Store) (l : List Value),
    safeEvalAst (f + 15) s ⟨[("xs", .list l)], [("xs", .list l)]⟩
        (.expression (.call (.name "len") [.name "xs"] []))
      = rok (.int l.length, ⟨[("xs", .list l)], [("xs", .list l)]⟩) := by
  intro f s l
  rfl

/-- Claim C2 counterexample: `len([1, 2])` — a direct call of a built-in by
call syntax on a list literal, with no variables at all — is not rejected
during validation (its `Call` kind is outside the allow-list, but passes the
`isinstance` check); it executes and returns `2`. -/
theorem c2_call_counterexample :
    kindListed (Node.call (.name "len")
        [.listlit [.constant (.int 1), .constant (.int 2)]] []) = false ∧
      allowedInstance (Node.call (.name "len")
        [.listlit [.constant (.int 1), .constant (.int 2)]] []) = true ∧
      safeEvalAst 30 [] ⟨[], []⟩
          (.expression (.call (.name "len")
            [.listlit [.constant (.int 1), .constant (.int 2)]] []))
        = rok (.int 2, ⟨[], []⟩) := by
  decide

/-- Claim C3, corrected.  The loop variable of a comprehension is NOT scoped
to the comprehension: `visit_comprehension` writes the binding into
`self.names` and nothing ever removes or restores it.  After a list
comprehension over a single generator is validated, its target name is
(still) bound in the parser's name table. -/
theorem c3_loop_binding_persists {fuel : Nat} {s : Store} {p : DatabooksParser}
    {elt : Node} {t : String} {iter : Node} {ifs : List Node}
    {p' : DatabooksParser}
    (h : visit fuel s p (.listcomp elt [.comprehension (.name t) iter ifs])
      = rok p') :
    (dlookup p'.names t).isSome = true := by
  cases fuel with
  | zero => simp [visit, rok] at h
  | succ f =>
    simp only [visit] at h
    cases f with
    | zero => simp [genericVisit, rok] at h
    | succ f' =>
      have ha : allowedInstance
          (Node.listcomp elt [.comprehension (.name t) iter ifs]) = true := rfl
      simp only [genericVisit, ha, if_true] at h
      cases f' with
      | zero => simp [visits, rok] at h
      | succ f'' =>
        simp only [Node.children, visits] at h
        obtain ⟨p₁, h1, h2⟩ := rbind_ok_iff.mp h
        have hb := comp_binds h1
        exact ((visitMono f'').2.2.1 _ _ _ _ h2).2 t hb

/-- Claim C3 witness: with `i` pre-bound to `7`, validating
`[i for i in xs]` succeeds, and afterwards `i` is (still) bound in the
parser's name table. -/
theorem c3_persist_witness :
    visit 30 [] ⟨[("i", .int 7), ("xs", .list [.int 1])],
        [("i", .int 7), ("xs", .list [.int 1])]⟩
        (.listcomp (.name "i") [.comprehension (.name "i") (.name "xs") []])
      = rok ⟨[("i", .ellipsis), ("i", .int 7), ("xs", .list [.int 1])],
          [("i", .int 7), ("xs", .list [.int 1])]⟩ ∧
    (dlookup ([("i", .ellipsis), ("i", .int 7), ("xs", .list [.int 1])] : Env)
        "i").isSome = true :=
  ⟨by decide,
   @c3_loop_binding_persists 30 [] ⟨[("i", .int 7), ("xs", .list [.int 1])],
        [("i", .int 7), ("xs", .list [.int 1])]⟩ (.name "i") "i" (.name "xs") []
      ⟨[("i", .ellipsis), ("i", .int 7), ("xs", .list [.int 1])],
        [("i", .int 7), ("xs", .list [.int 1])]⟩ (by decide)⟩

/-- Claim C3 counterexample: the pre-existing binding `i = 7` is NOT restored
once the comprehension's extent ends — after validating `[i for i in xs]` the
table maps `i` to the comprehension's synthetic binder (`Ellipsis`), not back
to `7`; and the leaked binding is visible to a sibling expression validated
afterwards (`i` alone passes validation but then hits a runtime `NameError`,
since the execution scope never had it). -/
theorem c3_not_restored_counterexample :
    (dlookup ([("i", .int 7), ("xs", .list [.int 1])] : Env) "i"
        = some (.int 7)) ∧
    (match visit 30 [] ⟨[("i", .int 7), ("xs", .list [.int 1])],
        [("i", .int 7), ("xs", .list [.int 1])]⟩
        (.listcomp (.name "i") [.comprehension (.name "i") (.name "xs") []]) with
      | some (.ok p') => dlookup p'.names "i"
      | _ => Option.none) = some .ellipsis ∧
    (Value.ellipsis ≠ Value.int 7) := by
  decide

/-- Claim C4, corrected.  The Comprehension Binder keeps every element that
is a `DatabooksBase` and merges their field dicts: when the produced elements
are a mix of records and non-records, the loop variable is bound to a
synthetic record over the union of the RECORD elements' fields (see the
counterexample) — not, as claimed, to an attribute-less opaque value; the
opaque `Ellipsis` binder arises exactly when NO element is a record (in
particular when the iterable is empty).  Stated for a comprehension whose
iterable and `if` filters contain no nested comprehension: after
`visit_comprehension` succeeds, the target is bound to `compBind l` where `l`
is what eagerly iterating the iterable produced, and `compBind l` declares
exactly the union of the record elements' fields. -/
theorem c4_binder_shape {fuel : Nat} {s : Store} {p : DatabooksParser}
    {t : String} {iter : Node} {ifs : List Node} {l : List Value}
    {p₁ p' : DatabooksParser}
    (hiter : getIter fuel s p iter = rok (l, p₁))
    (hni : noComp iter = true) (hnifs : noCompL ifs = true)
    (h : visit (fuel + 1) s p (.comprehension (.name t) iter ifs) = rok p') :
    dlookup p'.names t = some (compBind l) ∧
    (∀ a, a ∈ allowedAttrs (compBind l) ↔
      ∃ fs ∈ l.filterMap structFields, a ∈ fs.map Prod.fst) ∧
    (l.filterMap structFields = [] → compBind l = Value.ellipsis) := by
  simp only [visit] at h
  rw [hiter] at h
  simp only [rbind, rok] at h
  cases fuel with
  | zero => simp [genericVisit, rok] at h
  | succ f =>
    have ha : allowedInstance (Node.comprehension (.name t) iter ifs)
        = true := rfl
    simp only [genericVisit, ha, if_true] at h
    have hnc : noCompL (Node.children (.comprehension (.name t) iter ifs))
        = true := by
      simp [Node.children, noCompL, noComp, hni, hnifs]
    have hpure := (visitPure f).2.2.1 _ _ _ _ hnc h
    subst hpure
    refine ⟨?_, fun a => compBind_keys l a, ?_⟩
    · rw [dlookup_dinsert]
      simp
    · intro he
      simp only [compBind, he]

/-- Claim C4 witness: over `xs = [DatabooksBase(a=1), DatabooksBase(b=2)]`,
validating `[r for r in xs]` binds `r` to the synthetic record with the union
of the fields, `{a, b}`. -/
theorem c4_union_witness :
    dlookup ([("r", compBind [.structured [("a", .int 1)],
          .structured [("b", .int 2)]]),
        ("xs", .list [.structured [("a", .int 1)],
          .structured [("b", .int 2)]])] : Env) "r"
      = some (compBind [.structured [("a", .int 1)],
          .structured [("b", .int 2)]]) :=
  (@c4_binder_shape 20 []
    ⟨[("xs", .list [.structured [("a", .int 1)], .structured [("b", .int 2)]])],
     [("xs", .list [.structured [("a", .int 1)], .structured [("b", .int 2)]])]⟩
    "r" (.name "xs") []
    [.structured [("a", .int 1)], .structured [("b", .int 2)]]
    ⟨[("xs", .list [.structured [("a", .int 1)], .structured [("b", .int 2)]])],
     [("xs", .list [.structured [("a", .int 1)], .structured [("b", .int 2)]])]⟩
    ⟨[("r", compBind [.structured [("a", .int 1)], .structured [("b", .int 2)]]),
      ("xs", .list [.structured [("a", .int 1)], .structured [("b", .int 2)]])],
     [("xs", .list [.structured [("a", .int 1)], .structured [("b", .int 2)]])]⟩
    (by decide) (by decide) (by decide) (by decide)).1

/-- Claim C4 counterexample: over the MIXED iterable
`[DatabooksBase(a=1), 2]` — not uniformly records — the loop variable is
bound to the synthetic record `{a: 1}`, which permits the attribute access
`el.a`, not to an opaque attribute-less value. -/
theorem c4_mixed_counterexample :
    compBind [.structured [("a", .int 1)], .int 2]
        = .structured [("a", .int 1)] ∧
      compBind [.structured [("a", .int 1)], .int 2] ≠ Value.ellipsis ∧
      (match visit 30 [] ⟨[("xs", .list [.structured [("a", .int 1)], .int 2])],
          [("xs", .list [.structured [("a", .int 1)], .int 2])]⟩
          (.comprehension (.name "el") (.name "xs") []) with
        | some (.ok p') => dlookup p'.names "el"
        | _ => Option.none) = some (.structured [("a", .int 1)]) ∧
      allowedAttrs (.structured [("a", .int 1)]) = ["a"] := by
  decide

/-- Claim C5, corrected.  Validation is NOT free of execution: for a
comprehension, `_get_iter` eagerly evaluates the iterable DURING validation
(see the counterexample, where validation itself raises a runtime
`TypeError`), and the bindings it writes survive the failure, so processing
is not atomic either.  What does hold is the claim restricted to
comprehension-free expressions: there, a validation failure is always a pure
validation diagnostic (never an error produced by executing code), and —
`visit` then being state-free — nothing of the expression has been executed
or recorded when the diagnostic is raised. -/
theorem c5_validation_error_is_static {fuel : Nat} {s : Store}
    {p : DatabooksParser} {n : Node} {e : Err} (hn : noComp n = true)
    (h : visit fuel s p n = rerr e) : e.isRuntime = false :=
  (visitPure fuel).2.2.2.1 s p n e hn h

/-- Claim C5 witness: validating the bare name `q` in an empty scope fails
with the (static) diagnostic `UnknownName`, not a runtime error. -/
theorem c5_static_witness :
    noComp (Node.name "q") = true ∧
      visit 5 [] ⟨[], []⟩ (.name "q") = rerr (.unknownName "q") ∧
      (Err.unknownName "q").isRuntime = false :=
  ⟨by decide, by decide,
   @c5_validation_error_is_static 5 [] ⟨[], []⟩ (.name "q")
     (.unknownName "q") (by decide) (by decide)⟩

/-- Claim C5 counterexample: validating `[y for y in n]` where `n = 5`
executes the iterable during validation — validation itself fails with a
runtime `TypeError` (iterating a non-iterable), so execution does occur
before any diagnostic. -/
theorem c5_execution_counterexample :
    visit 30 [] ⟨[("n", .int 5)], [("n", .int 5)]⟩
        (.listcomp (.name "y") [.comprehension (.name "y") (.name "n") []])
      = rerr .typeError ∧
      Err.isRuntime .typeError = true := by
  decide

/-- Claim C6, confirmed (spec-modelled: the legal-attribute set
`get_keys(obj.dict())` of a `DatabooksBase` comes from `databooks.common`,
which is not among the provided sources; `allowedAttrs` models it from the
spec's words).  For `a.b` with `a` a simple name that resolves — eagerly, at
validation time, in the parser's name table — to a value `obj`: validation
succeeds iff `b` is among `obj`'s legal attributes, else it fails with
`DisallowedAttribute`; and the legal attributes are exactly the declared
field names of a `StructuredValue`, so for a plain scalar, sequence or
`Ellipsis` every attribute access fails. -/
theorem c6_attribute_guard {fuel : Nat} {s : Store} {p : DatabooksParser}
    {a b : String} {obj : Value} (h : dlookup p.names a = some obj) :
    visit (fuel + 9) s p (.attribute (.name a) b)
        = (if (allowedAttrs obj).contains b then rok p
           else rerr (.disallowedAttribute (allowedAttrs obj) b)) ∧
      ((allowedAttrs obj).contains b = true ↔
        ∃ fs, obj = .structured fs ∧ b ∈ fs.map Prod.fst) := by
  constructor
  · simp only [visit, h]
    by_cases hc : (allowedAttrs obj).contains b
    · simp only [hc, if_true]
      have hn6 : visit (fuel + 6) s p (.name a) = rok p :=
        visit_name_bound fuel s (by rw [h]; rfl)
      show rbind (visit (fuel + 6) s p (.name a))
        (fun p' => visits (fuel + 6) s p' [.leaf "Load"]) = rok p
      rw [hn6]
      rfl
    · rw [Bool.not_eq_true] at hc
      simp only [hc, Bool.false_eq_true, if_false]
  · cases obj <;> simp [allowedAttrs]

/-- Claim C6 witness: with `cell` bound to the record `{cell_type: "code"}`,
the access `cell.cell_type` is admitted (and the legal-attribute test for
`cell_type` holds of exactly that record shape). -/
theorem c6_guard_witness :
    visit 29 [] ⟨[("cell", .structured [("cell_type", .str "code")])], []⟩
        (.attribute (.name "cell") "cell_type")
      = (if (allowedAttrs (.structured [("cell_type", .str "code")])).contains
            "cell_type"
         then rok ⟨[("cell", .structured [("cell_type", .str "code")])], []⟩
         else rerr (.disallowedAttribute
            (allowedAttrs (.structured [("cell_type", .str "code")]))
            "cell_type")) ∧
      ((allowedAttrs (Value.structured [("cell_type", .str "code")])).contains
          "cell_type" = true ↔
        ∃ fs, Value.structured [("cell_type", .str "code")] = .structured fs ∧
          "cell_type" ∈ fs.map Prod.fst) :=
  @c6_attribute_guard 20 [] ⟨[("cell", .structured [("cell_type", .str "code")])], []⟩
    "cell" "cell_type" (.structured [("cell_type", .str "code")]) (by decide)

/-- Claim C7, corrected.  The `visit_Name` check itself is as described: a
name bound in neither the parser's table nor the builtins is rejected with
`UnknownName`.  But the claim quantifies over every EXPRESSION containing
such a name, and there it fails: a comprehension's leaked loop binding can
make a sibling use of the name pass validation and then die at execution
time with a runtime `NameError` instead (see the counterexample). -/
theorem c7_unknown_name_rejected {p : DatabooksParser} {id : String}
    (fuel : Nat) (s : Store) (h1 : dlookup p.names id = Option.none)
    (h2 : builtinNames.contains id = false) :
    visit (fuel + 1) s p (.name id) = rerr (.unknownName id) := by
  have hc : ((dlookup p.names id).isSome || builtinNames.contains id) = false := by
    rw [h1, h2]
    rfl
  simp only [visit, hc, Bool.false_eq_true, if_false]

/-- Claim C7 witness: in an empty scope the name `q` is in neither tier, and
visiting it fails with `UnknownName`. -/
theorem c7_reject_witness :
    visit 5 [] ⟨[], []⟩ (.name "q") = rerr (.unknownName "q") :=
  @c7_unknown_name_rejected ⟨[], []⟩ "q" 4 [] (by decide) (by decide)

/-- Claim C7 counterexample: in `([i for i in xs], i)` the trailing `i` is in
neither the builtins nor the supplied variables (`xs` only), and is not
inside any comprehension — yet evaluation fails with a runtime `NameError`,
not `UnknownName`: the comprehension's leaked binding lets `i` pass
validation, and execution then cannot find it. -/
theorem c7_leak_counterexample :
    dlookup ([("xs", .list [.int 1, .int 2, .int 3])] : Env) "i"
        = Option.none ∧
      builtinNames.contains "i" = false ∧
      safeEvalAst 30 []
          ⟨[("xs", .list [.int 1, .int 2, .int 3])],
           [("xs", .list [.int 1, .int 2, .int 3])]⟩
          (.expression (.tuplelit
            [.listcomp (.name "i") [.comprehension (.name "i") (.name "xs") []],
             .name "i"]))
        = rerr (.nameError "i") ∧
      Err.nameError "i" ≠ Err.unknownName "i" := by
  decide

/-- Claim C8, confirmed.  The constructor deep-copies the caller's variable
mapping (`deepcopy(variables)`), so the engine holds no handle into caller
memory: a parser built by `DatabooksParser.init` gives the same outcome for
every evaluation whatever happens to the caller's store afterwards — the
result of `safe_eval_ast` is identical under any two stores. -/
theorem c8_copy_on_construct {fuel₀ : Nat} {s₀ : Store} {vars : Env}
    {p : DatabooksParser} (hinit : DatabooksParser.init fuel₀ s₀ vars = some p)
    (fuel : Nat) (s₁ s₂ : Store) (n : Node) :
    safeEvalAst fuel s₁ p n = safeEvalAst fuel s₂ p n := by
  obtain ⟨hf, hsc⟩ := init_refFree hinit
  have hscf : refFreeF p.scopeVars = true := by rw [hsc]; exact hf
  unfold safeEvalAst
  apply rbind_congr ((visitStore fuel).1 s₁ s₂ p n hf hscf).1
  intro p' hp'
  obtain ⟨hp'f, hp'sc⟩ := ((visitStore fuel).1 s₁ s₂ p n hf hscf).2 p' hp'
  apply rbind_congr
  · exact ((evalStore fuel).1 s₁ s₂ p'.scopeVars [] n
      (by rw [hp'sc]; exact hscf) rfl).1
  · intro v _
    rfl

/-- Claim C8 witness: an engine built over a caller object held by handle
(`x ↦ ref 0`, the store holding `{a: 1}`) evaluates `x.a` to `1`, and the
outcome is unchanged when the caller's store is mutated to `{a: 99}` — or
destroyed entirely. -/
theorem c8_copy_witness :
    DatabooksParser.init 5 [.structured [("a", .int 1)]] [("x", .ref 0)]
        = some ⟨[("x", .structured [("a", .int 1)])],
            [("x", .structured [("a", .int 1)])]⟩ ∧
      safeEvalAst 20 [] ⟨[("x", .structured [("a", .int 1)])],
          [("x", .structured [("a", .int 1)])]⟩
          (.expression (.attribute (.name "x") "a"))
        = rok (.int 1, ⟨[("x", .structured [("a", .int 1)])],
            [("x", .structured [("a", .int 1)])]⟩) ∧
      safeEvalAst 20 [] ⟨[("x", .structured [("a", .int 1)])],
          [("x", .structured [("a", .int 1)])]⟩
          (.expression (.attribute (.name "x") "a"))
        = safeEvalAst 20 [.structured [("a", .int 99)]]
          ⟨[("x", .structured [("a", .int 1)])],
           [("x", .structured [("a", .int 1)])]⟩
          (.expression (.attribute (.name "x") "a")) :=
  ⟨by decide, by decide,
   @c8_copy_on_construct 5 [.structured [("a", .int 1)]] [("x", .ref 0)]
     ⟨[("x", .structured [("a", .int 1)])], [("x", .structured [("a", .int 1)])]⟩
     (by decide) 20 [] [.structured [("a", .int 99)]]
     (.expression (.attribute (.name "x") "a"))⟩

/-- Claim C9, corrected.  The engine DOES keep hidden state across
evaluations: `visit_comprehension` writes into `self.names`, so an
expression containing a comprehension can change what a later evaluation of
the very same expression does (see the counterexample, where the first run
produces a value and the identical second run fails).  For
comprehension-free expressions the claim holds: a successful evaluation
leaves the parser exactly as it was, and re-running it yields the identical
result. -/
theorem c9_rerun_deterministic {fuel : Nat} {s : Store}
    {p : DatabooksParser} {n : Node} {v : Value} {p' : DatabooksParser}
    (hn : noComp n = true) (h : safeEvalAst fuel s p n = rok (v, p')) :
    p' = p ∧ safeEvalAst fuel s p' n = rok (v, p') := by
  unfold safeEvalAst at h ⊢
  obtain ⟨q, h1, h2⟩ := rbind_ok_iff.mp h
  obtain ⟨w, h3, h4⟩ := rbind_ok_iff.mp h2
  have hpair := rok_inj h4
  have hq : q = p := (visitPure fuel).1 _ _ _ _ hn h1
  injection hpair with hw hqp
  have hp' : p' = p := by
    rw [← hqp]
    exact hq
  refine ⟨hp', ?_⟩
  subst hp'
  exact h

/-- Claim C9 witness: evaluating `x > 3` with `x = 5` succeeds with `True`,
leaves the engine unchanged, and re-evaluating gives the identical result. -/
theorem c9_rerun_witness :
    (⟨[("x", .int 5)], [("x", .int 5)]⟩ : DatabooksParser)
        = ⟨[("x", .int 5)], [("x", .int 5)]⟩ ∧
      safeEvalAst 20 [] ⟨[("x", .int 5)], [("x", .int 5)]⟩
          (.expression (.compare (.name "x") [.gt] [.constant (.int 3)]))
        = rok (.bool true, ⟨[("x", .int 5)], [("x", .int 5)]⟩) :=
  @c9_rerun_deterministic 20 [] ⟨[("x", .int 5)], [("x", .int 5)]⟩
    (.expression (.compare (.name "x") [.gt] [.constant (.int 3)]))
    (.bool true) ⟨[("x", .int 5)], [("x", .int 5)]⟩ (by decide) (by decide)

/-- Claim C9 counterexample: with `i` supplied as the record `{f: 1}` and
`xs = [1]`, the expression `(i.f, [i for i in xs])` evaluates successfully
the first time — and the comprehension's leaked rebinding of `i` (to the
attribute-less `Ellipsis`) makes the SAME expression on the SAME engine fail
with `DisallowedAttribute` the second time. -/
theorem c9_hidden_state_counterexample :
    safeEvalAst 30 []
        ⟨[("i", .structured [("f", .int 1)]), ("xs", .list [.int 1])],
         [("i", .structured [("f", .int 1)]), ("xs", .list [.int 1])]⟩
        (.expression (.tuplelit
          [.attribute (.name "i") "f",
           .listcomp (.name "i") [.comprehension (.name "i") (.name "xs") []]]))
      = rok (.list [.int 1, .list [.int 1]],
          ⟨[("i", .ellipsis), ("i", .structured [("f", .int 1)]),
            ("xs", .list [.int 1])],
           [("i", .structured [("f", .int 1)]), ("xs", .list [.int 1])]⟩) ∧
      safeEvalAst 30 []
        ⟨[("i", .ellipsis), ("i", .structured [("f", .int 1)]),
          ("xs", .list [.int 1])],
         [("i", .structured [("f", .int 1)]), ("xs", .list [.int 1])]⟩
        (.expression (.tuplelit
          [.attribute (.name "i") "f",
           .listcomp (.name "i") [.comprehension (.name "i") (.name "xs") []]]))
      = rerr (.disallowedAttribute [] "f") := by
  decide

/-- Claim C10, confirmed.  `visit_Attribute` looks the base name up directly
in `self.names` (`self.names[node.value.id]`): when the name is not a key of
that table — even when it IS a builtin, like `len` — the handler raises a
bare `KeyError` before `visit_Name` ever sees the base, so the failure is
neither `UnknownName` nor `DisallowedAttribute`. -/
theorem c10_attribute_keyerror {p : DatabooksParser} {a : String}
    (fuel : Nat) (s : Store) (b : String)
    (h : dlookup p.names a = Option.none) :
    visit (fuel + 1) s p (.attribute (.name a) b) = rerr (.keyError a) := by
  simp only [visit, h]

/-- Claim C10 witness: `len` is a builtin, and is not a key of the name
table; `len.b` fails with the bare `KeyError`, which is neither of the
documented diagnostics. -/
theorem c10_keyerror_witness :
    builtinNames.contains "len" = true ∧
      visit 5 [] ⟨[], []⟩ (.attribute (.name "len") "b")
        = rerr (.keyError "len") ∧
      Err.keyError "len" ≠ Err.unknownName "len" ∧
      (∀ l : List String, Err.keyError "len" ≠ Err.disallowedAttribute l "b") :=
  ⟨by decide,
   @c10_attribute_keyerror ⟨[], []⟩ "len" 4 [] "b" (by decide),
   by decide, fun l => by simp⟩

end Databooks
